import Mathlib

/-! # kamus decryptor: the JSON walker and the resolver client

A shallow embedding of `decryptor/main.go`.

* Go strings are Lean strings; byte offsets are counted in UTF-8 bytes.
* A decoded JSON document (what `json.Unmarshal` stores in an empty interface) is the
  type `JSON`.  A Go map is the list of its entries in the order in which the
  `range` loop of the run visits them; Go leaves that order unspecified, so
  the list order is arbitrary.
* The outside world is a record `Env` of oracles: the files that are read, the
  HTTP endpoint, the JSON codec and the target file.  The oracles of the
  credential file and of the endpoint receive the requests sent so far, so the
  endpoint may answer the same token differently at different times.
* `fmt.Println` and the copy of the result on standard output are not modelled.
* The walker mutates the document in place; the embedding returns the
  document as it is after the walk.  `panic` and `os.Exit` end the process and
  are the two ways an `Outcome` aborts.
-/

namespace Kamus

/-! ## Go standard library -/

namespace strings

/-- Search of `substr` in the remainder of a string, `off` being the byte
offset of that remainder. -/
def indexFrom (substr : List Char) : List Char → Int → Int
  | [], off => if substr.isPrefixOf [] then off else -1
  | c :: t, off =>
    if substr.isPrefixOf (c :: t) then off else indexFrom substr t (off + c.utf8Size)

/-- Go `strings.Index`: byte index of the first instance of `substr` in `s`,
or `-1` when there is none. -/
def Index (s substr : String) : Int :=
  indexFrom substr.data s.data 0

/-- Loop of `genSplit` for a non-empty separator: `cur` holds (reversed) the
piece being collected and `skip` counts the characters of a separator just
matched that are still to be dropped. -/
def splitLoop (sep : List Char) : List Char → Nat → List Char → List (List Char)
  | [], _, cur => [cur.reverse]
  | _ :: t, skip + 1, cur => splitLoop sep t skip cur
  | c :: t, 0, cur =>
    if sep.isPrefixOf (c :: t) then cur.reverse :: splitLoop sep t (sep.length - 1) []
    else splitLoop sep t 0 (c :: cur)

/-- Go `strings.Split`: `s` cut at every instance of `sep`; with an empty
separator the string is exploded into its characters. -/
def Split (s sep : String) : List String :=
  if sep.data = [] then s.data.map fun c => String.mk [c]
  else (splitLoop sep.data s.data 0 []).map String.mk

end strings

/-- What reading a stream to its end yields: the bytes obtained and the error,
if any, that stopped the reading before the end. -/
structure Reader where
  data : String
  err : Option String
  deriving DecidableEq, Repr

namespace ioutil

/-- Go `ioutil.ReadAll` on a `bufio.Reader` over the result of `os.Open`.
`none` is the nil `*os.File` left by a failed open: reading it yields no byte
and the error `os.ErrInvalid`. -/
def ReadAll : Option Reader → Reader
  | some r => r
  | none => ⟨"", some "invalid argument"⟩

end ioutil

/-! ## Data model -/

/-- A decoded JSON value.  `number` carries the `float64`, which the walker
never inspects, as its 64-bit pattern. -/
inductive JSON where
  | null
  | bool (b : Bool)
  | number (bits : Nat)
  | str (s : String)
  | arr (elems : List JSON)
  | obj (entries : List (String × JSON))

/-- The request sent to the decryption endpoint: the field `data` of the JSON
body (`DecryptRequest.EncryptedData`) and the two headers. -/
structure Request where
  data : String
  contentType : String
  authorization : String
  deriving DecidableEq, Repr

/-- Result of `client.Do`: a transport error, or a response with its status
code and its body. -/
inductive HttpResult where
  | err (msg : String)
  | response (statusCode : Int) (body : Reader)
  deriving DecidableEq, Repr

/-- How the process ends early: `panic(err)` or `os.Exit(code)`. -/
inductive Abort where
  | panic (msg : String)
  | exit (code : Int)
  deriving DecidableEq, Repr

/-- Result of a computation together with the requests handed to `client.Do`
so far, the one that made the computation abort included. -/
inductive Outcome (α : Type) where
  | ok (val : α) (posts : List Request)
  | abort (how : Abort) (posts : List Request)

namespace Outcome

/-- The requests sent when the computation ended. -/
def posts {α : Type} : Outcome α → List Request
  | ok _ ps => ps
  | abort _ ps => ps

/-- Sequencing: an abort ends the run. -/
def bind {α β : Type} (x : Outcome α) (f : α → List Request → Outcome β) : Outcome β :=
  match x with
  | ok a ps => f a ps
  | abort e ps => abort e ps

/-- Whether the computation returned. -/
def isOk {α : Type} : Outcome α → Bool
  | ok _ _ => true
  | abort _ _ => false

end Outcome

/-- An operation on a file opened for writing. -/
inductive FileOp where
  | truncate (path : String)
  | write (path : String) (bytes : String)
  deriving DecidableEq, Repr

/-- The outside world of one run. -/
structure Env where
  /-- Result of `os.Open` on a path given on the command line. -/
  openSource : String → Option Reader
  /-- Result of `os.Open` on the service-account token file, given the requests sent so far. -/
  openCredential : List Request → Option Reader
  /-- Result of `client.Do`, given the requests sent earlier. -/
  http : List Request → Request → HttpResult
  /-- Function `json.Unmarshal` into the map `m` of `main`. -/
  unmarshal : String → Except String (List (String × JSON))
  /-- Function `json.Marshal` of the document. -/
  marshal : List (String × JSON) → Except String String
  /-- Error of `os.OpenFile` on the target path, if any. -/
  openTarget : String → Option String
  /-- Error of `file.Write`, if any. -/
  writeTarget : String → String → Option String

/-! ## The program -/

/-- The request that `decrypt` builds: the credential file is read (the
errors of `os.Open` and of `ioutil.ReadAll` are discarded) and what was read
follows `Bearer ` in the `Authorization` header. -/
def decryptRequest (env : Env) (encodedData : String) (posts : List Request) : Request :=
  let token := (ioutil.ReadAll (env.openCredential posts)).data
  ⟨encodedData, "application/json", "Bearer " ++ token⟩

/-- Go `decrypt`: reads the credential (both errors discarded), posts the
token, panics on a transport error, exits with 1 on a status above 299 and
otherwise returns the body as read (error discarded). -/
def decrypt (env : Env) (encodedData : String) (posts : List Request) : Outcome String :=
  let req := decryptRequest env encodedData posts
  match env.http posts req with
  | .err msg => .abort (.panic msg) (posts ++ [req])
  | .response statusCode res =>
    let body := (ioutil.ReadAll (some res)).data
    if statusCode > 299 then .abort (.exit 1) (posts ++ [req])
    else .ok body (posts ++ [req])

mutual
/-- The type switch that `parseMap` runs on the value of one entry; the result
is the value found under that key afterwards. -/
def parseMapCase (env : Env) : JSON → List Request → Outcome JSON
  | .obj m, ps => (parseMap env m ps).bind fun m' ps' => .ok (.obj m') ps'
  | .arr a, ps => (parseArray env a ps).bind fun a' ps' => .ok (.arr a') ps'
  | .str s, ps =>
    if strings.Index s "secure:" = 0 then
      match (strings.Split s ":")[1]? with
      | none => .abort (.panic "index out of range") ps
      | some t => (decrypt env t ps).bind fun plain ps' => .ok (.str plain) ps'
    else .ok (.str s) ps
  | v, ps => .ok v ps
termination_by structural v => v
/-- Go `parseMap`: the loop over the entries of a map. -/
def parseMap (env : Env) : List (String × JSON) → List Request →
    Outcome (List (String × JSON))
  | [], ps => .ok [] ps
  | kv :: rest, ps =>
    (parseMapCase env kv.2 ps).bind fun v' ps' =>
      (parseMap env rest ps').bind fun rest' ps'' => .ok ((kv.1, v') :: rest') ps''
termination_by structural m => m
/-- The type switch that `parseArray` runs on one element: maps and arrays are
walked, every other element is only printed. -/
def parseArrayCase (env : Env) : JSON → List Request → Outcome JSON
  | .obj m, ps => (parseMap env m ps).bind fun m' ps' => .ok (.obj m') ps'
  | .arr a, ps => (parseArray env a ps).bind fun a' ps' => .ok (.arr a') ps'
  | v, ps => .ok v ps
termination_by structural v => v
/-- Go `parseArray`: the loop over the elements of a slice. -/
def parseArray (env : Env) : List JSON → List Request → Outcome (List JSON)
  | [], ps => .ok [] ps
  | v :: rest, ps =>
    (parseArrayCase env v ps).bind fun v' ps' =>
      (parseArray env rest ps').bind fun rest' ps'' => .ok (v' :: rest') ps''
termination_by structural a => a
end

/-- What a run of the program leaves behind. -/
structure Run where
  /-- Value `none` when the run completed, otherwise how it ended. -/
  status : Option Abort
  posts : List Request
  files : List FileOp

/-- Go `main` on the command line `args` (program name included). -/
def main (env : Env) (args : List String) : Run :=
  match args with
  | _ :: source :: target :: _ =>
    let content := (ioutil.ReadAll (env.openSource source)).data
    match env.unmarshal content with
    | .error e => ⟨some (.panic e), [], []⟩
    | .ok m =>
      match parseMap env m [] with
      | .abort e ps => ⟨some e, ps, []⟩
      | .ok m' ps =>
        let b := match env.marshal m' with
          | .ok b => b
          | .error _ => ""
        match env.openTarget target with
        | some e => ⟨some (.panic e), ps, []⟩
        | none =>
          match env.writeTarget target b with
          | some e => ⟨some (.panic e), ps, [.truncate target]⟩
          | none => ⟨none, ps, [.truncate target, .write target b]⟩
  | _ => ⟨some (.exit 1), [], []⟩

/-! ## Specification vocabulary -/

/-- Whether a string starts with the literal `secure:` (its first seven
characters are exactly those). -/
def isMarker (s : String) : Bool :=
  s.data.take 7 == "secure:".data

mutual
/-- Whether a string starting with `secure:` occurs anywhere in the value. -/
def JSON.hasMarker : JSON → Bool
  | .str s => isMarker s
  | .arr a => hasMarkerElems a
  | .obj m => hasMarkerEntries m
  | _ => false
termination_by structural v => v
/-- Whether a string starting with `secure:` occurs anywhere in the elements. -/
def hasMarkerElems : List JSON → Bool
  | [] => false
  | v :: rest => v.hasMarker || hasMarkerElems rest
termination_by structural a => a
/-- Whether a string starting with `secure:` occurs anywhere in the entries. -/
def hasMarkerEntries : List (String × JSON) → Bool
  | [] => false
  | kv :: rest => kv.2.hasMarker || hasMarkerEntries rest
termination_by structural m => m
end

/-- One step of a path into a document: the key of an object or the index of
an array. -/
inductive Step where
  | key (k : String)
  | idx (i : Nat)
  deriving DecidableEq, Repr

/-- The value found by following a path from a value, if the path exists. -/
def getPath : List Step → JSON → Option JSON
  | [], v => some v
  | .key k :: p, .obj m =>
    match m.lookup k with
    | some v => getPath p v
    | none => none
  | .idx i :: p, .arr a =>
    match a[i]? with
    | some v => getPath p v
    | none => none
  | _, _ => none

mutual
/-- Shape preservation between a document and its walked version: same kind
of value at every position, same keys in every object, same length of every
array, and every leaf that is not a marker string is the same; a marker
string may have become any string. -/
def sameShape : JSON → JSON → Bool
  | .null, w => match w with
    | .null => true
    | _ => false
  | .bool b, w => match w with
    | .bool c => b == c
    | _ => false
  | .number n, w => match w with
    | .number k => n == k
    | _ => false
  | .str s, w => match w with
    | .str t => isMarker s || s == t
    | _ => false
  | .arr a, w => match w with
    | .arr b => sameShapeElems a b
    | _ => false
  | .obj m, w => match w with
    | .obj n => sameShapeEntries m n
    | _ => false
termination_by structural v => v
/-- Shape preservation, element by element. -/
def sameShapeElems : List JSON → List JSON → Bool
  | [], ws => ws.isEmpty
  | v :: rest, ws => match ws with
    | w :: more => sameShape v w && sameShapeElems rest more
    | [] => false
termination_by structural a => a
/-- Shape preservation, entry by entry, the keys being equal. -/
def sameShapeEntries : List (String × JSON) → List (String × JSON) → Bool
  | [], ws => ws.isEmpty
  | kv :: rest, ws => match ws with
    | kw :: more => kv.1 == kw.1 && sameShape kv.2 kw.2 && sameShapeEntries rest more
    | [] => false
termination_by structural m => m
end

/-- An answer on which `decrypt` ends the process: an error of `client.Do` or
a status above 299. -/
def HttpResult.refused : HttpResult → Bool
  | .err _ => true
  | .response statusCode _ => decide (299 < statusCode)

/-- A resolution that fails: a transport error, be it an error of `client.Do`
or an error that stops the reading of the body of the response, or a status
above 299. -/
def HttpResult.failed : HttpResult → Bool
  | .err _ => true
  | .response statusCode body => decide (299 < statusCode) || body.err.isSome

/-- The request at position `i` of a list of requests was answered with an
error of `client.Do` or a status above 299, given the requests before it. -/
def refusedAt (env : Env) (sent : List Request) (i : Nat) : Prop :=
  ∃ req, sent[i]? = some req ∧ (env.http (sent.take i) req).refused = true

/-- The resolution of the request at position `i` of a list of requests
failed, given the requests before it. -/
def failedAt (env : Env) (sent : List Request) (i : Nat) : Prop :=
  ∃ req, sent[i]? = some req ∧ (env.http (sent.take i) req).failed = true

/-- Fail-fast behaviour of a computation started after the requests `ps`:
it only adds requests, and a request of its own that was answered with an
error of `client.Do` or a status above 299 made it abort and is the last
request sent. -/
def FailFast {α : Type} (env : Env) (ps : List Request) (o : Outcome α) : Prop :=
  ps <+: o.posts ∧
  ∀ i, ps.length ≤ i → refusedAt env o.posts i → o.isOk = false ∧ i + 1 = o.posts.length

/-- The request at position `i` of a list of requests is `req` and was
answered, given the requests before it, with a status of at most 299 and a
body that reads as `plain`. -/
def answeredAt (env : Env) (sent : List Request) (i : Nat) (req : Request)
    (plain : String) : Prop :=
  sent[i]? = some req ∧
  ∃ st body, env.http (sent.take i) req = .response st body ∧ st ≤ 299 ∧ plain = body.data

/-- Every string `secure:` followed by `T` that `orig` holds under a key `k`
reached by `path` has, in `walked`, been replaced by the plaintext of a
successful answer to a request of the walk (one sent after the requests `ps`,
among the requests `sent` when the walk returned) whose token is the text of
`T` before its first colon. -/
def ResolvedAt (env : Env) (ps sent : List Request) (orig walked : JSON)
    (path : List Step) : Prop :=
  ∀ (k T : String), getPath (path ++ [.key k]) orig = some (.str ("secure:" ++ T)) →
    ∃ i req plain, ps.length ≤ i ∧ answeredAt env sent i req plain ∧
      req.data = String.mk (T.data.takeWhile (· != ':')) ∧
      getPath (path ++ [.key k]) walked = some (.str plain)

/-- The same document visited in another order: the entries of any object, at
any depth, may be listed in another order. -/
inductive Reorder : JSON → JSON → Prop where
  | refl (v : JSON) : Reorder v v
  | trans {a b c : JSON} : Reorder a b → Reorder b c → Reorder a c
  | perm {m n : List (String × JSON)} : m.Perm n → Reorder (.obj m) (.obj n)
  | entry (before after : List (String × JSON)) (k : String) {v w : JSON} :
      Reorder v w → Reorder (.obj (before ++ (k, v) :: after)) (.obj (before ++ (k, w) :: after))
  | elem (before after : List JSON) {v w : JSON} :
      Reorder v w → Reorder (.arr (before ++ v :: after)) (.arr (before ++ w :: after))

mutual
/-- The walk read as a pure function, for an endpoint whose answer `r` depends
on the token only: the walked value and the tokens sent, or `none` when some
resolution fails.  This is the per-entry switch of objects. -/
def pureMapCase (r : String → HttpResult) : JSON → Option (JSON × List String)
  | .obj m => (pureMap r m).map fun x => (.obj x.1, x.2)
  | .arr a => (pureArray r a).map fun x => (.arr x.1, x.2)
  | .str s =>
    if isMarker s then
      match (strings.Split s ":")[1]? with
      | none => none
      | some t =>
        match r t with
        | .err _ => none
        | .response statusCode body =>
          if 299 < statusCode then none else some (.str body.data, [t])
    else some (.str s, [])
  | v => some (v, [])
termination_by structural v => v
/-- Pure reading of the walk of the entries of an object. -/
def pureMap (r : String → HttpResult) :
    List (String × JSON) → Option (List (String × JSON) × List String)
  | [] => some ([], [])
  | kv :: rest =>
    (pureMapCase r kv.2).bind fun x =>
      (pureMap r rest).map fun y => ((kv.1, x.1) :: y.1, x.2 ++ y.2)
termination_by structural m => m
/-- Pure reading of the per-element switch of arrays. -/
def pureArrayCase (r : String → HttpResult) : JSON → Option (JSON × List String)
  | .obj m => (pureMap r m).map fun x => (.obj x.1, x.2)
  | .arr a => (pureArray r a).map fun x => (.arr x.1, x.2)
  | v => some (v, [])
termination_by structural v => v
/-- Pure reading of the walk of the elements of an array. -/
def pureArray (r : String → HttpResult) : List JSON → Option (List JSON × List String)
  | [] => some ([], [])
  | v :: rest =>
    (pureArrayCase r v).bind fun x =>
      (pureArray r rest).map fun y => (x.1 :: y.1, x.2 ++ y.2)
termination_by structural a => a
end

/-- An outcome of a walk started after the requests `ps` agrees with a pure
reading: both fail, or the walk returns the value of the pure reading after
sending requests whose tokens are, in order, those of the pure reading, each
request being one that `decrypt` builds for its token. -/
def Agrees {α : Type} (env : Env) (ps : List Request) (o : Outcome α)
    (p : Option (α × List String)) : Prop :=
  match p with
  | some x => ∃ extra, o = .ok x.1 (ps ++ extra) ∧ extra.map Request.data = x.2 ∧
      ∀ req ∈ extra, ∃ qs, req = decryptRequest env req.data qs
  | none => o.isOk = false

/-- Two pure readings of lists of entries give the same entries and the same
tokens, each up to order, or both fail. -/
def SameEntries (p q : Option (List (String × JSON) × List String)) : Prop :=
  match p, q with
  | some x, some y => x.1.Perm y.1 ∧ x.2.Perm y.2
  | none, none => True
  | _, _ => False

/-- Two pure readings give the same value up to the order of visit and the
same tokens up to order, or both fail. -/
def SameResult (p q : Option (JSON × List String)) : Prop :=
  match p, q with
  | some x, some y => Reorder x.1 y.1 ∧ x.2.Perm y.2
  | none, none => True
  | _, _ => False

/-! ## Example worlds -/

/-- An endpoint that knows four tokens and rejects every other one. -/
def exampleHttp (token : String) : HttpResult :=
  if token = "abc123" then .response 200 ⟨"s3cr3t", none⟩
  else if token = "a" then .response 200 ⟨"X", none⟩
  else if token = "b" then .response 200 ⟨"Y", none⟩
  else if token = "" then .response 200 ⟨"nothing", none⟩
  else .response 404 ⟨"not found", none⟩

/-- A world with a readable credential, the example endpoint, a source file
`in.json` that decodes to a document with two markers whose first one is
unknown to the endpoint, and a writable target. -/
def exampleEnv : Env where
  openSource := fun _ => some ⟨"in.json", none⟩
  openCredential := fun _ => some ⟨"tok", none⟩
  http := fun _ req => exampleHttp req.data
  unmarshal := fun _ => .ok [("x", .str "secure:bad"), ("y", .str "secure:abc123")]
  marshal := fun _ => .ok "out.json"
  openTarget := fun _ => none
  writeTarget := fun _ _ => none

/-- The example world without the service-account token file. -/
def missingCredentialEnv : Env where
  openSource := fun _ => some ⟨"in.json", none⟩
  openCredential := fun _ => none
  http := fun _ req => exampleHttp req.data
  unmarshal := fun _ => .ok []
  marshal := fun _ => .ok "out.json"
  openTarget := fun _ => none
  writeTarget := fun _ _ => none

/-- An endpoint that answers every token, with the status 200 and the token
itself after `plain-` as the body. -/
def echoHttp (token : String) : HttpResult :=
  .response 200 ⟨"plain-" ++ token, none⟩

/-- A world with the endpoint that answers every token. -/
def echoEnv : Env where
  openSource := fun _ => some ⟨"in.json", none⟩
  openCredential := fun _ => some ⟨"tok", none⟩
  http := fun _ req => echoHttp req.data
  unmarshal := fun _ => .ok []
  marshal := fun _ => .ok "out.json"
  openTarget := fun _ => none
  writeTarget := fun _ _ => none

/-- A world in which every answer has the status 200 and a body whose
reading is cut short by an error after the bytes `s3c`; the source file
decodes to a document with two markers. -/
def cutEnv : Env where
  openSource := fun _ => some ⟨"in.json", none⟩
  openCredential := fun _ => some ⟨"tok", none⟩
  http := fun _ _ => .response 200 ⟨"s3c", some "unexpected EOF"⟩
  unmarshal := fun _ => .ok [("x", .str "secure:abc123"), ("y", .str "secure:a")]
  marshal := fun _ => .ok "bytes"
  openTarget := fun _ => none
  writeTarget := fun _ _ => none

/-- A world whose decryption service cannot be reached for the token `down`
and answers every other token with the status 404. -/
def refusingEnv : Env where
  openSource := fun _ => some ⟨"in.json", none⟩
  openCredential := fun _ => some ⟨"tok", none⟩
  http := fun _ req =>
    if req.data = "down" then .err "connection refused" else .response 404 ⟨"not found", none⟩
  unmarshal := fun _ => .ok []
  marshal := fun _ => .ok "out.json"
  openTarget := fun _ => none
  writeTarget := fun _ _ => none

/-! ## Facts about the library functions -/

@[simp]
theorem Outcome.bind_ok {α β : Type} (a : α) (ps : List Request)
    (f : α → List Request → Outcome β) : (Outcome.ok a ps).bind f = f a ps := rfl

@[simp]
theorem Outcome.bind_abort {α β : Type} (e : Abort) (ps : List Request)
    (f : α → List Request → Outcome β) :
    (Outcome.abort e ps : Outcome α).bind f = Outcome.abort e ps := rfl

theorem indexFrom_ge (sub : List Char) : ∀ (l : List Char) (off : Int),
    strings.indexFrom sub l off = -1 ∨ off ≤ strings.indexFrom sub l off := by
  intro l
  induction l with
  | nil => intro off; simp only [strings.indexFrom]; split <;> simp
  | cons c t ih =>
    intro off
    simp only [strings.indexFrom]
    split
    · simp
    · rcases ih (off + c.utf8Size) with h | h
      · left; exact h
      · right; omega

/-- The test `strings.Index(s, sub) == 0` holds exactly when `s` starts with `sub`. -/
theorem Index_eq_zero_iff (s sub : String) :
    strings.Index s sub = 0 ↔ sub.data <+: s.data := by
  unfold strings.Index
  rw [← List.isPrefixOf_iff_prefix]
  cases hs : s.data with
  | nil => simp only [strings.indexFrom]; split <;> simp_all
  | cons c t =>
    simp only [strings.indexFrom]
    split
    · simp_all
    · rename_i h
      have hpos : 0 < c.utf8Size := Char.utf8Size_pos c
      rcases indexFrom_ge sub.data t (0 + c.utf8Size) with h1 | h1
      · rw [h1]; simp [h]
      · constructor
        · intro h0; omega
        · intro h2; exact absurd h2 h

theorem isMarker_iff_data (s : String) : isMarker s = true ↔ "secure:".data <+: s.data := by
  unfold isMarker
  rw [beq_iff_eq, List.prefix_iff_eq_take]
  simp [eq_comm]

/-- A marker is a string of the form `secure:` followed by some token text. -/
theorem isMarker_iff (s : String) : isMarker s = true ↔ ∃ T : String, s = "secure:" ++ T := by
  rw [isMarker_iff_data]
  constructor
  · rintro ⟨t, ht⟩
    refine ⟨⟨t⟩, ?_⟩
    apply String.ext
    rw [String.data_append, ← ht]
  · rintro ⟨T, rfl⟩
    exact ⟨T.data, by rw [String.data_append]⟩

theorem Index_marker (s : String) : strings.Index s "secure:" = 0 ↔ isMarker s = true := by
  rw [Index_eq_zero_iff, isMarker_iff_data]

theorem splitLoop_colon_head : ∀ (l cur : List Char),
    ∃ tl, strings.splitLoop [':'] l 0 cur = (cur.reverse ++ l.takeWhile (· != ':')) :: tl := by
  intro l
  induction l with
  | nil => intro cur; exact ⟨[], by simp [strings.splitLoop]⟩
  | cons c t ih =>
    intro cur
    by_cases hc : c = ':'
    · subst hc
      exact ⟨strings.splitLoop [':'] t 0 [], by simp [strings.splitLoop, List.isPrefixOf]⟩
    · obtain ⟨tl, htl⟩ := ih (c :: cur)
      refine ⟨tl, ?_⟩
      simp [strings.splitLoop, List.isPrefixOf, hc, htl, Ne.symm hc]

/-- The piece that `strings.Split(s, ":")[1]` selects in `secure:` followed by
`T`: the text of `T` before its first colon. -/
theorem split_marker (T : String) :
    (strings.Split ("secure:" ++ T) ":")[1]? =
      some (String.mk (T.data.takeWhile (· != ':'))) := by
  obtain ⟨tl, htl⟩ := splitLoop_colon_head T.data []
  have hd : ("secure:" ++ T).data = 's' :: 'e' :: 'c' :: 'u' :: 'r' :: 'e' :: ':' :: T.data := by
    rw [String.data_append]; rfl
  have hsep : (":" : String).data = [':'] := rfl
  unfold strings.Split
  rw [hd, hsep]
  simp [strings.splitLoop, List.isPrefixOf, htl]

theorem split_of_isMarker (s : String) (h : isMarker s = true) :
    ∃ t, (strings.Split s ":")[1]? = some t := by
  obtain ⟨T, rfl⟩ := (isMarker_iff s).1 h
  exact ⟨_, split_marker T⟩

/-! ## The resolver client -/

theorem decrypt_of_err (env : Env) (token : String) (ps : List Request) (msg : String)
    (h : env.http ps (decryptRequest env token ps) = .err msg) :
    decrypt env token ps = .abort (.panic msg) (ps ++ [decryptRequest env token ps]) := by
  simp only [decrypt, h]

theorem decrypt_of_response (env : Env) (token : String) (ps : List Request) (st : Int)
    (body : Reader) (h : env.http ps (decryptRequest env token ps) = .response st body) :
    decrypt env token ps =
      if 299 < st then .abort (.exit 1) (ps ++ [decryptRequest env token ps])
      else .ok body.data (ps ++ [decryptRequest env token ps]) := by
  simp only [decrypt, h, ioutil.ReadAll, gt_iff_lt]

theorem decrypt_posts (env : Env) (token : String) (ps : List Request) :
    (decrypt env token ps).posts = ps ++ [decryptRequest env token ps] := by
  cases h : env.http ps (decryptRequest env token ps) with
  | err msg => rw [decrypt_of_err env token ps msg h]; rfl
  | response st body =>
    rw [decrypt_of_response env token ps st body h]
    split <;> rfl

theorem decrypt_ok_iff (env : Env) (token plain : String) (ps ps' : List Request) :
    decrypt env token ps = .ok plain ps' ↔
      ps' = ps ++ [decryptRequest env token ps] ∧
      ∃ st body, env.http ps (decryptRequest env token ps) = .response st body ∧
        st ≤ 299 ∧ plain = body.data := by
  cases h : env.http ps (decryptRequest env token ps) with
  | err msg =>
    rw [decrypt_of_err env token ps msg h]
    constructor
    · intro h0; cases h0
    · rintro ⟨_, st, body, he, _⟩; cases he
  | response st body =>
    rw [decrypt_of_response env token ps st body h]
    by_cases hst : 299 < st
    · rw [if_pos hst]
      constructor
      · intro h0; cases h0
      · rintro ⟨_, st', body', he, hle, _⟩
        cases he
        omega
    · rw [if_neg hst]
      constructor
      · intro h0
        cases h0
        exact ⟨rfl, st, body, rfl, by omega, rfl⟩
      · rintro ⟨rfl, st', body', he, _, rfl⟩
        cases he
        rfl

/-- C10: whatever response the endpoint returns, `decrypt` returns exactly
when the status code is at most 299, and then returns the body as read,
unchanged; on a status code above 299 it exits with code 1 and returns no
plaintext. -/
theorem decrypt_status_threshold (env : Env) (token : String) (ps : List Request)
    (statusCode : Int) (body : Reader)
    (hres : env.http ps (decryptRequest env token ps) = .response statusCode body) :
    (statusCode ≤ 299 →
      decrypt env token ps = .ok body.data (ps ++ [decryptRequest env token ps])) ∧
    (299 < statusCode →
      decrypt env token ps = .abort (.exit 1) (ps ++ [decryptRequest env token ps])) ∧
    ((decrypt env token ps).isOk = true ↔ statusCode ≤ 299) := by
  rw [decrypt_of_response env token ps statusCode body hres]
  by_cases hst : 299 < statusCode
  · rw [if_pos hst]
    refine ⟨fun h => by omega, fun _ => rfl, ?_⟩
    constructor
    · intro h; cases h
    · intro h; omega
  · rw [if_neg hst]
    exact ⟨fun _ => rfl, fun h => by omega, fun _ => by omega, fun _ => rfl⟩

theorem decrypt_status_threshold_witness :
    exampleEnv.http [] (decryptRequest exampleEnv "abc123" []) = .response 200 ⟨"s3cr3t", none⟩ ∧
    decrypt exampleEnv "abc123" [] =
      .ok "s3cr3t" [⟨"abc123", "application/json", "Bearer tok"⟩] :=
  ⟨by decide,
   (decrypt_status_threshold exampleEnv "abc123" [] 200 ⟨"s3cr3t", none⟩ (by decide)).1
     (by decide)⟩

/-- C9, as the code has it: when the credential file is missing or
unreadable the error is discarded; `decrypt` still sends exactly one request,
whose `Authorization` header is `Bearer ` followed by the bytes that could be
read (none when the file could not be opened), and it returns or aborts
according to the answer to that request alone. -/
theorem decrypt_discards_credential_error (env : Env) (token : String) (ps : List Request)
    (hcred : (ioutil.ReadAll (env.openCredential ps)).err ≠ none) :
    (decrypt env token ps).posts =
      ps ++ [⟨token, "application/json",
        "Bearer " ++ (ioutil.ReadAll (env.openCredential ps)).data⟩] ∧
    (env.openCredential ps = none →
      (decrypt env token ps).posts = ps ++ [⟨token, "application/json", "Bearer "⟩]) ∧
    ((decrypt env token ps).isOk = true ↔
      ∃ st body, env.http ps (decryptRequest env token ps) = .response st body ∧ st ≤ 299) := by
  have _ := hcred
  refine ⟨decrypt_posts env token ps, ?_, ?_⟩
  · intro hnone
    rw [decrypt_posts]
    simp [decryptRequest, hnone, ioutil.ReadAll]
  · cases h : decrypt env token ps with
    | ok plain ps' =>
      obtain ⟨_, st, body, he, hle, _⟩ := (decrypt_ok_iff env token plain ps ps').1 h
      simp only [Outcome.isOk, true_iff]
      exact ⟨st, body, he, hle⟩
    | abort e ps' =>
      simp only [Outcome.isOk, false_iff]
      constructor
      · intro h0; cases h0
      · rintro ⟨st, body, he, hle⟩
        have h1 := (decrypt_ok_iff env token body.data ps
          (ps ++ [decryptRequest env token ps])).2 ⟨rfl, st, body, he, hle, rfl⟩
        rw [h] at h1
        cases h1

theorem decrypt_discards_credential_error_witness :
    (ioutil.ReadAll (missingCredentialEnv.openCredential [])).err ≠ none ∧
    (decrypt missingCredentialEnv "abc123" []).posts =
      [] ++ [⟨"abc123", "application/json", "Bearer "⟩] :=
  ⟨by decide,
   (decrypt_discards_credential_error missingCredentialEnv "abc123" [] (by decide)).2.1 rfl⟩

/-- C9, as stated, fails: in a world without the credential file, `decrypt`
sends the request (with an empty bearer credential) and returns the plaintext
of the answer. -/
theorem decrypt_without_credential_returns_plaintext :
    missingCredentialEnv.openCredential [] = none ∧
    (ioutil.ReadAll (missingCredentialEnv.openCredential [])).err ≠ none ∧
    decrypt missingCredentialEnv "abc123" [] =
      .ok "s3cr3t" [⟨"abc123", "application/json", "Bearer "⟩] :=
  ⟨rfl, by decide, by rfl⟩

/-! ## The walker: unfolding lemmas -/

theorem parseMapCase_obj (env : Env) (m : List (String × JSON)) (ps : List Request) :
    parseMapCase env (.obj m) ps =
      (parseMap env m ps).bind fun m' ps' => .ok (.obj m') ps' := by
  simp only [parseMapCase]

theorem parseMapCase_arr (env : Env) (a : List JSON) (ps : List Request) :
    parseMapCase env (.arr a) ps =
      (parseArray env a ps).bind fun a' ps' => .ok (.arr a') ps' := by
  simp only [parseMapCase]

theorem parseMapCase_marker (env : Env) (s t : String) (ps : List Request)
    (hs : isMarker s = true) (ht : (strings.Split s ":")[1]? = some t) :
    parseMapCase env (.str s) ps =
      (decrypt env t ps).bind fun plain ps' => .ok (.str plain) ps' := by
  simp only [parseMapCase, (Index_marker s).2 hs, if_true, ht]

theorem parseMapCase_plain (env : Env) (s : String) (ps : List Request)
    (hs : isMarker s = false) : parseMapCase env (.str s) ps = .ok (.str s) ps := by
  have h : ¬ strings.Index s "secure:" = 0 := by
    rw [Index_marker]; simp [hs]
  simp only [parseMapCase, h, if_false]

theorem parseArrayCase_obj (env : Env) (m : List (String × JSON)) (ps : List Request) :
    parseArrayCase env (.obj m) ps =
      (parseMap env m ps).bind fun m' ps' => .ok (.obj m') ps' := by
  simp only [parseArrayCase]

theorem parseArrayCase_arr (env : Env) (a : List JSON) (ps : List Request) :
    parseArrayCase env (.arr a) ps =
      (parseArray env a ps).bind fun a' ps' => .ok (.arr a') ps' := by
  simp only [parseArrayCase]

theorem parseMap_cons (env : Env) (kv : String × JSON) (rest : List (String × JSON))
    (ps : List Request) :
    parseMap env (kv :: rest) ps =
      (parseMapCase env kv.2 ps).bind fun v' ps' =>
        (parseMap env rest ps').bind fun rest' ps'' => .ok ((kv.1, v') :: rest') ps'' := by
  simp only [parseMap]

theorem parseArray_cons (env : Env) (v : JSON) (rest : List JSON) (ps : List Request) :
    parseArray env (v :: rest) ps =
      (parseArrayCase env v ps).bind fun v' ps' =>
        (parseArray env rest ps').bind fun rest' ps'' => .ok (v' :: rest') ps'' := by
  simp only [parseArray]

/-! ## Documents without markers -/

mutual
theorem parseMapCase_id (env : Env) : ∀ (v : JSON) (ps : List Request),
    v.hasMarker = false → parseMapCase env v ps = .ok v ps
  | .obj m, ps, h => by
    simp only [JSON.hasMarker] at h
    rw [parseMapCase_obj, parseMap_id env m ps h]; rfl
  | .arr a, ps, h => by
    simp only [JSON.hasMarker] at h
    rw [parseMapCase_arr, parseArray_id env a ps h]; rfl
  | .str s, ps, h => by
    simp only [JSON.hasMarker] at h
    exact parseMapCase_plain env s ps h
  | .null, ps, _ => by simp only [parseMapCase]
  | .bool _, ps, _ => by simp only [parseMapCase]
  | .number _, ps, _ => by simp only [parseMapCase]
theorem parseMap_id (env : Env) : ∀ (m : List (String × JSON)) (ps : List Request),
    hasMarkerEntries m = false → parseMap env m ps = .ok m ps
  | [], ps, _ => by simp only [parseMap]
  | kv :: rest, ps, h => by
    simp only [hasMarkerEntries, Bool.or_eq_false_iff] at h
    rw [parseMap_cons, parseMapCase_id env kv.2 ps h.1, Outcome.bind_ok,
      parseMap_id env rest ps h.2]
    rfl
theorem parseArrayCase_id (env : Env) : ∀ (v : JSON) (ps : List Request),
    v.hasMarker = false → parseArrayCase env v ps = .ok v ps
  | .obj m, ps, h => by
    simp only [JSON.hasMarker] at h
    rw [parseArrayCase_obj, parseMap_id env m ps h]; rfl
  | .arr a, ps, h => by
    simp only [JSON.hasMarker] at h
    rw [parseArrayCase_arr, parseArray_id env a ps h]; rfl
  | .str _, ps, _ => by simp only [parseArrayCase]
  | .null, ps, _ => by simp only [parseArrayCase]
  | .bool _, ps, _ => by simp only [parseArrayCase]
  | .number _, ps, _ => by simp only [parseArrayCase]
theorem parseArray_id (env : Env) : ∀ (a : List JSON) (ps : List Request),
    hasMarkerElems a = false → parseArray env a ps = .ok a ps
  | [], ps, _ => by simp only [parseArray]
  | v :: rest, ps, h => by
    simp only [hasMarkerElems, Bool.or_eq_false_iff] at h
    rw [parseArray_cons, parseArrayCase_id env v ps h.1, Outcome.bind_ok,
      parseArray_id env rest ps h.2]
    rfl
end

/-- C2: on a JSON value in which no string starts with `secure:`, the walk
returns the value unchanged and sends no request, whatever the world is. -/
theorem walk_identity_without_markers (env : Env) (ps : List Request) :
    (∀ m : List (String × JSON), (JSON.obj m).hasMarker = false →
      parseMap env m ps = .ok m ps) ∧
    (∀ a : List JSON, (JSON.arr a).hasMarker = false →
      parseArray env a ps = .ok a ps) := by
  constructor
  · intro m h
    simp only [JSON.hasMarker] at h
    exact parseMap_id env m ps h
  · intro a h
    simp only [JSON.hasMarker] at h
    exact parseArray_id env a ps h

theorem walk_identity_without_markers_witness :
    (JSON.obj [("user", .str "alice"), ("tags", .arr [.str "insecure:x", .number 7]),
      ("opts", .obj [("on", .bool true), ("none", .null)])]).hasMarker = false ∧
    parseMap exampleEnv [("user", .str "alice"), ("tags", .arr [.str "insecure:x", .number 7]),
      ("opts", .obj [("on", .bool true), ("none", .null)])] [] =
      .ok [("user", .str "alice"), ("tags", .arr [.str "insecure:x", .number 7]),
        ("opts", .obj [("on", .bool true), ("none", .null)])] [] :=
  ⟨by decide, (walk_identity_without_markers exampleEnv []).1 _ (by decide)⟩

/-! ## Arrays and tokens: where the code departs from its contract -/

/-- C3, on the code: `parseArray` never replaces an element.  The marker
strings of `["secure:a", 1, "secure:b"]` stay as they are and no request is
sent, also when the array is the value of a key of the document. -/
theorem parseArray_leaves_marker_elements (env : Env) (ps : List Request) :
    parseArray env [.str "secure:a", .number 1, .str "secure:b"] ps =
      .ok [.str "secure:a", .number 1, .str "secure:b"] ps ∧
    parseMap env [("list", .arr [.str "secure:a", .number 1, .str "secure:b"])] ps =
      .ok [("list", .arr [.str "secure:a", .number 1, .str "secure:b"])] ps :=
  ⟨rfl, rfl⟩

/-- C4, on the code: the token sent for `secure:a:b:c` is `a`, the text
between the first and the second colon, not `a:b:c`. -/
theorem token_cut_at_second_colon (env : Env) (ps : List Request) :
    (strings.Split "secure:a:b:c" ":")[1]? = some "a" ∧
    (parseMap env [("k", .str "secure:a:b:c")] ps).posts =
      ps ++ [decryptRequest env "a" ps] ∧
    (decryptRequest env "a" ps).data = "a" := by
  refine ⟨by decide, ?_, rfl⟩
  have hm : parseMapCase env (.str "secure:a:b:c") ps =
      (decrypt env "a" ps).bind fun plain ps' => .ok (.str plain) ps' :=
    parseMapCase_marker env _ _ ps (by decide) (by decide)
  rw [parseMap_cons, hm, ← decrypt_posts env "a" ps]
  cases decrypt env "a" ps <;> rfl

/-! ## The marker test -/

/-- C5: a string under a key of an object is handed to `decrypt` exactly when
it starts with the literal `secure:`; the token handed over is the piece
`strings.Split(s, ":")[1]`, and `decrypt` sends one request carrying it.  A
string that does not start with `secure:` stays as it is and the loop goes on
with the requests unchanged.  `insecure:foo`, `notsecure:xyz` and `Secure:foo`
are not markers; `secure:` alone is one, with the empty token. -/
theorem marker_test_is_strict (env : Env) (k s : String) (rest : List (String × JSON))
    (ps : List Request) :
    ((∃ T : String, s = "secure:" ++ T) →
      ∃ t, (strings.Split s ":")[1]? = some t ∧
        (decrypt env t ps).posts = ps ++ [decryptRequest env t ps] ∧
        (decryptRequest env t ps).data = t ∧
        parseMap env ((k, .str s) :: rest) ps =
          (decrypt env t ps).bind fun plain ps' =>
            (parseMap env rest ps').bind fun rest' ps'' =>
              .ok ((k, .str plain) :: rest') ps'') ∧
    ((¬ ∃ T : String, s = "secure:" ++ T) →
      parseMap env ((k, .str s) :: rest) ps =
        (parseMap env rest ps).bind fun rest' ps' => .ok ((k, .str s) :: rest') ps') ∧
    (¬ ∃ T : String, "insecure:foo" = "secure:" ++ T) ∧
    (¬ ∃ T : String, "notsecure:xyz" = "secure:" ++ T) ∧
    (¬ ∃ T : String, "Secure:foo" = "secure:" ++ T) ∧
    (∃ T : String, "secure:" = "secure:" ++ T) ∧
    (strings.Split "secure:" ":")[1]? = some "" := by
  refine ⟨?_, ?_, ?_, ?_, ?_, ⟨"", rfl⟩, by decide⟩
  · intro hs
    have hm : isMarker s = true := (isMarker_iff s).2 hs
    obtain ⟨t, ht⟩ := split_of_isMarker s hm
    refine ⟨t, ht, decrypt_posts env t ps, rfl, ?_⟩
    rw [parseMap_cons]
    show (parseMapCase env (.str s) ps).bind _ = _
    rw [parseMapCase_marker env s t ps hm ht]
    cases decrypt env t ps <;> rfl
  · intro hs
    have hm : isMarker s = false := by
      cases h : isMarker s with
      | false => rfl
      | true => exact absurd ((isMarker_iff s).1 h) hs
    rw [parseMap_cons]
    show (parseMapCase env (.str s) ps).bind _ = _
    rw [parseMapCase_plain env s ps hm]
    rfl
  · exact fun h => absurd ((isMarker_iff _).2 h) (by decide)
  · exact fun h => absurd ((isMarker_iff _).2 h) (by decide)
  · exact fun h => absurd ((isMarker_iff _).2 h) (by decide)

theorem marker_test_is_strict_witness :
    (∃ T : String, "secure:" = "secure:" ++ T) ∧
    (¬ ∃ T : String, "Secure:foo" = "secure:" ++ T) ∧
    (∃ t, (strings.Split "secure:" ":")[1]? = some t ∧
      (decrypt exampleEnv t []).posts = [] ++ [decryptRequest exampleEnv t []] ∧
      (decryptRequest exampleEnv t []).data = t ∧
      parseMap exampleEnv [("pass", .str "secure:")] [] =
        (decrypt exampleEnv t []).bind fun plain ps' =>
          (parseMap exampleEnv [] ps').bind fun rest' ps'' =>
            .ok (("pass", .str plain) :: rest') ps'') ∧
    parseMap exampleEnv [("pass", .str "Secure:foo")] [] =
      (parseMap exampleEnv [] []).bind fun rest' ps' =>
        .ok (("pass", .str "Secure:foo") :: rest') ps' :=
  ⟨⟨"", rfl⟩,
   (marker_test_is_strict exampleEnv "pass" "Secure:foo" [] []).2.2.2.2.1,
   (marker_test_is_strict exampleEnv "pass" "secure:" [] []).1 ⟨"", rfl⟩,
   (marker_test_is_strict exampleEnv "pass" "Secure:foo" [] []).2.1
     (marker_test_is_strict exampleEnv "pass" "Secure:foo" [] []).2.2.2.2.1⟩

/-! ## Fail-fast -/

theorem refusedAt_of_isPrefix (env : Env) {q sent : List Request} (hq : q <+: sent) {i : Nat}
    (hi : i < q.length) (h : refusedAt env sent i) : refusedAt env q i := by
  obtain ⟨t, rfl⟩ := hq
  obtain ⟨req, hreq, hfail⟩ := h
  refine ⟨req, ?_, ?_⟩
  · rw [List.getElem?_append_left hi] at hreq
    exact hreq
  · rw [List.take_append_of_le_length (Nat.le_of_lt hi)] at hfail
    exact hfail

theorem failFast_ok {α : Type} (env : Env) (a : α) (ps : List Request) :
    FailFast env ps (.ok a ps) := by
  refine ⟨List.prefix_refl _, ?_⟩
  rintro i hi ⟨req, hreq, _⟩
  have hlt : i < ps.length := by
    by_contra hge
    have hnone : ps[i]? = none := List.getElem?_eq_none (by omega)
    simp only [Outcome.posts] at hreq
    rw [hnone] at hreq
    cases hreq
  omega

theorem failFast_bind {α β : Type} (env : Env) (ps : List Request) (x : Outcome α)
    (f : α → List Request → Outcome β) (hx : FailFast env ps x)
    (hf : ∀ a ps1, x = .ok a ps1 → FailFast env ps1 (f a ps1)) :
    FailFast env ps (x.bind f) := by
  cases x with
  | abort e ps1 => exact hx
  | ok a ps1 =>
    have hy := hf a ps1 rfl
    rw [Outcome.bind_ok]
    refine ⟨List.IsPrefix.trans hx.1 hy.1, ?_⟩
    intro i hi hfail
    by_cases hlt : i < ps1.length
    · have h1 := refusedAt_of_isPrefix env hy.1 hlt hfail
      have h2 := (hx.2 i hi h1).1
      cases h2
    · exact hy.2 i (by omega) hfail

theorem failFast_decrypt (env : Env) (token : String) (ps : List Request) :
    FailFast env ps (decrypt env token ps) := by
  refine ⟨?_, ?_⟩
  · rw [decrypt_posts]; exact List.prefix_append _ _
  · rintro i hi ⟨req, hreq, hfail⟩
    rw [decrypt_posts] at hreq hfail ⊢
    have hlen : i = ps.length := by
      by_contra hne
      have hnone : (ps ++ [decryptRequest env token ps])[i]? = none :=
        List.getElem?_eq_none (by simp; omega)
      rw [hnone] at hreq
      cases hreq
    subst hlen
    rw [List.getElem?_append_right (le_refl _)] at hreq
    simp only [Nat.sub_self, List.getElem?_cons_zero, Option.some.injEq] at hreq
    subst hreq
    rw [List.take_left] at hfail
    refine ⟨?_, by simp⟩
    cases h : env.http ps (decryptRequest env token ps) with
    | err msg => rw [decrypt_of_err env token ps msg h]; rfl
    | response st body =>
      rw [h] at hfail
      simp only [HttpResult.refused, decide_eq_true_eq] at hfail
      rw [decrypt_of_response env token ps st body h, if_pos hfail]
      rfl

mutual
theorem failFast_parseMapCase (env : Env) : ∀ (v : JSON) (ps : List Request),
    FailFast env ps (parseMapCase env v ps)
  | .obj m, ps => by
    rw [parseMapCase_obj]
    exact failFast_bind env ps _ _ (failFast_parseMap env m ps) fun _ _ _ => failFast_ok env _ _
  | .arr a, ps => by
    rw [parseMapCase_arr]
    exact failFast_bind env ps _ _ (failFast_parseArray env a ps) fun _ _ _ => failFast_ok env _ _
  | .str s, ps => by
    cases hs : isMarker s with
    | false => rw [parseMapCase_plain env s ps hs]; exact failFast_ok env _ _
    | true =>
      obtain ⟨t, ht⟩ := split_of_isMarker s hs
      rw [parseMapCase_marker env s t ps hs ht]
      exact failFast_bind env ps _ _ (failFast_decrypt env t ps) fun _ _ _ => failFast_ok env _ _
  | .null, ps => by simp only [parseMapCase]; exact failFast_ok env _ _
  | .bool _, ps => by simp only [parseMapCase]; exact failFast_ok env _ _
  | .number _, ps => by simp only [parseMapCase]; exact failFast_ok env _ _
theorem failFast_parseMap (env : Env) : ∀ (m : List (String × JSON)) (ps : List Request),
    FailFast env ps (parseMap env m ps)
  | [], ps => by simp only [parseMap]; exact failFast_ok env _ _
  | kv :: rest, ps => by
    rw [parseMap_cons]
    exact failFast_bind env ps _ _ (failFast_parseMapCase env kv.2 ps) fun _ ps1 _ =>
      failFast_bind env ps1 _ _ (failFast_parseMap env rest ps1) fun _ _ _ => failFast_ok env _ _
theorem failFast_parseArrayCase (env : Env) : ∀ (v : JSON) (ps : List Request),
    FailFast env ps (parseArrayCase env v ps)
  | .obj m, ps => by
    rw [parseArrayCase_obj]
    exact failFast_bind env ps _ _ (failFast_parseMap env m ps) fun _ _ _ => failFast_ok env _ _
  | .arr a, ps => by
    rw [parseArrayCase_arr]
    exact failFast_bind env ps _ _ (failFast_parseArray env a ps) fun _ _ _ => failFast_ok env _ _
  | .str _, ps => by simp only [parseArrayCase]; exact failFast_ok env _ _
  | .null, ps => by simp only [parseArrayCase]; exact failFast_ok env _ _
  | .bool _, ps => by simp only [parseArrayCase]; exact failFast_ok env _ _
  | .number _, ps => by simp only [parseArrayCase]; exact failFast_ok env _ _
theorem failFast_parseArray (env : Env) : ∀ (a : List JSON) (ps : List Request),
    FailFast env ps (parseArray env a ps)
  | [], ps => by simp only [parseArray]; exact failFast_ok env _ _
  | v :: rest, ps => by
    rw [parseArray_cons]
    exact failFast_bind env ps _ _ (failFast_parseArrayCase env v ps) fun _ ps1 _ =>
      failFast_bind env ps1 _ _ (failFast_parseArray env rest ps1) fun _ _ _ => failFast_ok env _ _
end

/-- The requests of a run of `main` are those of its walk, and a run whose
walk aborts ends the same way with no operation on the target file. -/
theorem main_of_walk (env : Env) (args : List String) :
    ((main env args).posts = [] ∧ (main env args).files = [] ∧
      ∀ i, ¬ refusedAt env (main env args).posts i) ∨
    ∃ m, (main env args).posts = (parseMap env m []).posts ∧
      ((parseMap env m []).isOk = false →
        (main env args).files = [] ∧
        ∃ e, (main env args).status = some e ∧ ∃ ps, parseMap env m [] = .abort e ps) := by
  have hnil : ∀ i, ¬ refusedAt env [] i := by
    rintro i ⟨req, hreq, _⟩
    simp at hreq
  unfold main
  split
  · rename_i source target _
    simp only []
    split
    · exact Or.inl ⟨rfl, rfl, hnil⟩
    · rename_i m _
      refine Or.inr ⟨m, ?_⟩
      split
      · rename_i e ps hwalk
        rw [hwalk]
        exact ⟨rfl, fun _ => ⟨rfl, e, rfl, ps, rfl⟩⟩
      · rename_i m' ps hwalk
        rw [hwalk]
        refine ⟨?_, fun h => by cases h⟩
        split
        · rfl
        · split <;> rfl
  · exact Or.inl ⟨rfl, rfl, hnil⟩

/-- C7, as the code has it: when a request that the walk sends is answered
with an error of `client.Do` or with a status above 299, the walk aborts and
returns no document, that request is the last one sent, and the run of `main`
ends with a panic or an exit code and without any operation on the target
file. -/
theorem fail_fast (env : Env) :
    (∀ (m : List (String × JSON)) (ps : List Request) (i : Nat), ps.length ≤ i →
      refusedAt env (parseMap env m ps).posts i →
      (∃ e sent, parseMap env m ps = .abort e sent) ∧
      i + 1 = (parseMap env m ps).posts.length) ∧
    (∀ (args : List String) (i : Nat), refusedAt env (main env args).posts i →
      (∃ e, (main env args).status = some e) ∧
      i + 1 = (main env args).posts.length ∧
      (main env args).files = []) := by
  have hwalk : ∀ (m : List (String × JSON)) (ps : List Request) (i : Nat), ps.length ≤ i →
      refusedAt env (parseMap env m ps).posts i →
      (∃ e sent, parseMap env m ps = .abort e sent) ∧
      i + 1 = (parseMap env m ps).posts.length := by
    intro m ps i hi hfail
    obtain ⟨hok, hlast⟩ := (failFast_parseMap env m ps).2 i hi hfail
    refine ⟨?_, hlast⟩
    cases h : parseMap env m ps with
    | ok out sent => rw [h] at hok; cases hok
    | abort e sent => exact ⟨e, sent, rfl⟩
  refine ⟨hwalk, ?_⟩
  intro args i hfail
  rcases main_of_walk env args with ⟨_, _, hno⟩ | ⟨m, hposts, habort⟩
  · exact absurd hfail (hno i)
  · rw [hposts] at hfail ⊢
    obtain ⟨⟨e, sent, he⟩, hlast⟩ := hwalk m [] i (Nat.zero_le _) hfail
    obtain ⟨hfiles, e', hstatus, _⟩ := habort (by rw [he]; rfl)
    exact ⟨⟨e', hstatus⟩, hlast, hfiles⟩

theorem fail_fast_witness :
    refusedAt exampleEnv (main exampleEnv ["decryptor", "in.json", "out.json"]).posts 0 ∧
    (∃ e, (main exampleEnv ["decryptor", "in.json", "out.json"]).status = some e) ∧
    0 + 1 = (main exampleEnv ["decryptor", "in.json", "out.json"]).posts.length ∧
    (main exampleEnv ["decryptor", "in.json", "out.json"]).files = [] :=
  ⟨⟨⟨"bad", "application/json", "Bearer tok"⟩, by rfl, by decide⟩,
   (fail_fast exampleEnv).2 ["decryptor", "in.json", "out.json"] 0
     ⟨⟨"bad", "application/json", "Bearer tok"⟩, by rfl, by decide⟩⟩

theorem failed_iff (res : HttpResult) :
    res.failed = true ↔
      res.refused = true ∨ ∃ st body, res = .response st body ∧ body.err ≠ none := by
  cases res with
  | err msg => simp [HttpResult.failed, HttpResult.refused]
  | response st body =>
    simp only [HttpResult.failed, HttpResult.refused, Bool.or_eq_true, decide_eq_true_eq]
    constructor
    · rintro (h | h)
      · exact Or.inl h
      · refine Or.inr ⟨st, body, rfl, ?_⟩
        intro hn
        rw [hn] at h
        cases h
    · rintro (h | ⟨st', body', he, hne⟩)
      · exact Or.inl h
      · cases he
        right
        cases hb : body.err with
        | none => exact absurd hb hne
        | some _ => rfl

/-- C7, as stated, fails: when the reading of the body of a 200 answer is cut
short by a transport error, the resolution of the first marker has failed,
yet the walk goes on with the bytes read, sends the request of the second
marker, and `main` completes and writes the target file. -/
theorem body_error_does_not_stop_the_run :
    failedAt cutEnv (main cutEnv ["decryptor", "in.json", "out.json"]).posts 0 ∧
    parseMap cutEnv [("x", .str "secure:abc123"), ("y", .str "secure:a")] [] =
      .ok [("x", .str "s3c"), ("y", .str "s3c")]
        [⟨"abc123", "application/json", "Bearer tok"⟩,
          ⟨"a", "application/json", "Bearer tok"⟩] ∧
    (main cutEnv ["decryptor", "in.json", "out.json"]).status = none ∧
    (main cutEnv ["decryptor", "in.json", "out.json"]).posts.length = 2 ∧
    (main cutEnv ["decryptor", "in.json", "out.json"]).files =
      [.truncate "out.json", .write "out.json" "bytes"] :=
  ⟨⟨⟨"abc123", "application/json", "Bearer tok"⟩, by rfl, by decide⟩,
   by rfl, by rfl, by rfl, by rfl⟩

/-! ## Shape preservation -/

theorem Outcome.bind_eq_ok {α β : Type} {x : Outcome α} {f : α → List Request → Outcome β}
    {b : β} {ps' : List Request} (h : x.bind f = .ok b ps') :
    ∃ a ps1, x = .ok a ps1 ∧ f a ps1 = .ok b ps' := by
  cases x with
  | ok a ps1 => exact ⟨a, ps1, rfl, h⟩
  | abort e ps1 => cases h

theorem Outcome.ok_inj {α : Type} {a b : α} {ps qs : List Request}
    (h : (Outcome.ok a ps : Outcome α) = .ok b qs) : a = b ∧ ps = qs := by
  cases h
  exact ⟨rfl, rfl⟩

theorem sameShape_refl_str (s : String) : sameShape (.str s) (.str s) = true := by
  simp [sameShape]

mutual
theorem sameShape_parseMapCase (env : Env) : ∀ (v v' : JSON) (ps ps' : List Request),
    parseMapCase env v ps = .ok v' ps' → sameShape v v' = true
  | .obj m, v', ps, ps', h => by
    rw [parseMapCase_obj] at h
    obtain ⟨m', ps1, hm, hv⟩ := Outcome.bind_eq_ok h
    obtain ⟨rfl, _⟩ := Outcome.ok_inj hv
    simp only [sameShape]
    exact sameShape_parseMap env m m' ps ps1 hm
  | .arr a, v', ps, ps', h => by
    rw [parseMapCase_arr] at h
    obtain ⟨a', ps1, ha, hv⟩ := Outcome.bind_eq_ok h
    obtain ⟨rfl, _⟩ := Outcome.ok_inj hv
    simp only [sameShape]
    exact sameShape_parseArray env a a' ps ps1 ha
  | .str s, v', ps, ps', h => by
    cases hs : isMarker s with
    | false =>
      rw [parseMapCase_plain env s ps hs] at h
      obtain ⟨rfl, _⟩ := Outcome.ok_inj h
      exact sameShape_refl_str s
    | true =>
      obtain ⟨t, ht⟩ := split_of_isMarker s hs
      rw [parseMapCase_marker env s t ps hs ht] at h
      obtain ⟨plain, ps1, _, hv⟩ := Outcome.bind_eq_ok h
      obtain ⟨rfl, _⟩ := Outcome.ok_inj hv
      simp [sameShape, hs]
  | .null, v', ps, ps', h => by
    simp only [parseMapCase] at h
    obtain ⟨rfl, _⟩ := Outcome.ok_inj h
    simp [sameShape]
  | .bool _, v', ps, ps', h => by
    simp only [parseMapCase] at h
    obtain ⟨rfl, _⟩ := Outcome.ok_inj h
    simp [sameShape]
  | .number _, v', ps, ps', h => by
    simp only [parseMapCase] at h
    obtain ⟨rfl, _⟩ := Outcome.ok_inj h
    simp [sameShape]
theorem sameShape_parseMap (env : Env) :
    ∀ (m out : List (String × JSON)) (ps ps' : List Request),
    parseMap env m ps = .ok out ps' → sameShapeEntries m out = true
  | [], out, ps, ps', h => by
    simp only [parseMap] at h
    obtain ⟨rfl, _⟩ := Outcome.ok_inj h
    simp [sameShapeEntries]
  | kv :: rest, out, ps, ps', h => by
    rw [parseMap_cons] at h
    obtain ⟨v', ps1, hv, h1⟩ := Outcome.bind_eq_ok h
    obtain ⟨rest', ps2, hrest, h2⟩ := Outcome.bind_eq_ok h1
    obtain ⟨rfl, _⟩ := Outcome.ok_inj h2
    simp [sameShapeEntries, sameShape_parseMapCase env kv.2 v' ps ps1 hv,
      sameShape_parseMap env rest rest' ps1 ps2 hrest]
theorem sameShape_parseArrayCase (env : Env) : ∀ (v v' : JSON) (ps ps' : List Request),
    parseArrayCase env v ps = .ok v' ps' → sameShape v v' = true
  | .obj m, v', ps, ps', h => by
    rw [parseArrayCase_obj] at h
    obtain ⟨m', ps1, hm, hv⟩ := Outcome.bind_eq_ok h
    obtain ⟨rfl, _⟩ := Outcome.ok_inj hv
    simp only [sameShape]
    exact sameShape_parseMap env m m' ps ps1 hm
  | .arr a, v', ps, ps', h => by
    rw [parseArrayCase_arr] at h
    obtain ⟨a', ps1, ha, hv⟩ := Outcome.bind_eq_ok h
    obtain ⟨rfl, _⟩ := Outcome.ok_inj hv
    simp only [sameShape]
    exact sameShape_parseArray env a a' ps ps1 ha
  | .str s, v', ps, ps', h => by
    simp only [parseArrayCase] at h
    obtain ⟨rfl, _⟩ := Outcome.ok_inj h
    exact sameShape_refl_str s
  | .null, v', ps, ps', h => by
    simp only [parseArrayCase] at h
    obtain ⟨rfl, _⟩ := Outcome.ok_inj h
    simp [sameShape]
  | .bool _, v', ps, ps', h => by
    simp only [parseArrayCase] at h
    obtain ⟨rfl, _⟩ := Outcome.ok_inj h
    simp [sameShape]
  | .number _, v', ps, ps', h => by
    simp only [parseArrayCase] at h
    obtain ⟨rfl, _⟩ := Outcome.ok_inj h
    simp [sameShape]
theorem sameShape_parseArray (env : Env) : ∀ (a out : List JSON) (ps ps' : List Request),
    parseArray env a ps = .ok out ps' → sameShapeElems a out = true
  | [], out, ps, ps', h => by
    simp only [parseArray] at h
    obtain ⟨rfl, _⟩ := Outcome.ok_inj h
    simp [sameShapeElems]
  | v :: rest, out, ps, ps', h => by
    rw [parseArray_cons] at h
    obtain ⟨v', ps1, hv, h1⟩ := Outcome.bind_eq_ok h
    obtain ⟨rest', ps2, hrest, h2⟩ := Outcome.bind_eq_ok h1
    obtain ⟨rfl, _⟩ := Outcome.ok_inj h2
    simp [sameShapeElems, sameShape_parseArrayCase env v v' ps ps1 hv,
      sameShape_parseArray env rest rest' ps1 ps2 hrest]
end

theorem keys_of_sameShapeEntries : ∀ (m out : List (String × JSON)),
    sameShapeEntries m out = true → out.map Prod.fst = m.map Prod.fst
  | [], out, h => by
    cases out with
    | nil => rfl
    | cons _ _ => simp [sameShapeEntries] at h
  | kv :: rest, out, h => by
    cases out with
    | nil => simp [sameShapeEntries] at h
    | cons kw more =>
      simp only [sameShapeEntries, Bool.and_eq_true, beq_iff_eq] at h
      simp [h.1.1, keys_of_sameShapeEntries rest more h.2]

theorem length_of_sameShapeElems : ∀ (a out : List JSON),
    sameShapeElems a out = true → out.length = a.length
  | [], out, h => by
    cases out with
    | nil => rfl
    | cons _ _ => simp [sameShapeElems] at h
  | v :: rest, out, h => by
    cases out with
    | nil => simp [sameShapeElems] at h
    | cons w more =>
      simp only [sameShapeElems, Bool.and_eq_true] at h
      simp [length_of_sameShapeElems rest more h.2]

/-- C6: a walk that returns preserves the shape of the document, whatever
the answers of the endpoint are: at every depth each object keeps exactly its keys (in the
same positions), each array keeps its length and the order of its elements,
each container stays a container of the same kind, and each leaf that is not
a string starting with `secure:` is unchanged.  In particular the keys of the
document itself are unchanged. -/
theorem walk_preserves_shape (env : Env) (ps ps' : List Request) :
    (∀ m out : List (String × JSON), parseMap env m ps = .ok out ps' →
      sameShape (.obj m) (.obj out) = true ∧ out.map Prod.fst = m.map Prod.fst) ∧
    (∀ a out : List JSON, parseArray env a ps = .ok out ps' →
      sameShape (.arr a) (.arr out) = true ∧ out.length = a.length) := by
  constructor
  · intro m out h
    have hs := sameShape_parseMap env m out ps ps' h
    refine ⟨?_, keys_of_sameShapeEntries m out hs⟩
    simp only [sameShape]
    exact hs
  · intro a out h
    have hs := sameShape_parseArray env a out ps ps' h
    refine ⟨?_, length_of_sameShapeElems a out hs⟩
    simp only [sameShape]
    exact hs

theorem walk_preserves_shape_witness :
    parseMap exampleEnv
        [("user", .str "alice"), ("n", .number 3),
          ("deep", .arr [.obj [("pass", .str "secure:abc123"), ("off", .bool false)], .null])] [] =
      .ok [("user", .str "alice"), ("n", .number 3),
          ("deep", .arr [.obj [("pass", .str "s3cr3t"), ("off", .bool false)], .null])]
        [⟨"abc123", "application/json", "Bearer tok"⟩] ∧
    sameShape
        (.obj [("user", .str "alice"), ("n", .number 3),
          ("deep", .arr [.obj [("pass", .str "secure:abc123"), ("off", .bool false)], .null])])
        (.obj [("user", .str "alice"), ("n", .number 3),
          ("deep", .arr [.obj [("pass", .str "s3cr3t"), ("off", .bool false)], .null])]) = true ∧
    ["user", "n", "deep"] = ["user", "n", "deep"] :=
  ⟨by rfl,
   (walk_preserves_shape exampleEnv [] [⟨"abc123", "application/json", "Bearer tok"⟩]).1
     [("user", .str "alice"), ("n", .number 3),
       ("deep", .arr [.obj [("pass", .str "secure:abc123"), ("off", .bool false)], .null])]
     [("user", .str "alice"), ("n", .number 3),
       ("deep", .arr [.obj [("pass", .str "s3cr3t"), ("off", .bool false)], .null])]
     (by rfl)⟩

/-! ## Resolution of the markers under object keys -/

theorem answeredAt_of_isPrefix (env : Env) {q sent : List Request} (hq : q <+: sent) {i : Nat}
    {req : Request} {plain : String} (h : answeredAt env q i req plain) :
    answeredAt env sent i req plain := by
  obtain ⟨t, rfl⟩ := hq
  obtain ⟨hreq, st, body, hres, hst, hp⟩ := h
  have hi : i < q.length := by
    by_contra hge
    have hnone : q[i]? = none := List.getElem?_eq_none (by omega)
    rw [hnone] at hreq
    cases hreq
  refine ⟨?_, st, body, ?_, hst, hp⟩
  · rw [List.getElem?_append_left hi]
    exact hreq
  · rw [List.take_append_of_le_length (Nat.le_of_lt hi)]
    exact hres

theorem parseMap_lookup (env : Env) (k : String) (v : JSON) :
    ∀ (m out : List (String × JSON)) (ps ps' : List Request),
    parseMap env m ps = .ok out ps' → m.lookup k = some v →
    ∃ q q' v', ps <+: q ∧ q' <+: ps' ∧ parseMapCase env v q = .ok v' q' ∧
      out.lookup k = some v'
  | [], _, _, _, _, hl => by simp at hl
  | (k0, v0) :: rest, out, ps, ps', h, hl => by
    rw [parseMap_cons] at h
    obtain ⟨v1, ps1, hv, h1⟩ := Outcome.bind_eq_ok h
    obtain ⟨rest', ps2, hrest, h2⟩ := Outcome.bind_eq_ok h1
    obtain ⟨rfl, rfl⟩ := Outcome.ok_inj h2
    have hp1 : ps <+: ps1 := by
      have := (failFast_parseMapCase env v0 ps).1
      rw [hv] at this
      exact this
    have hp2 : ps1 <+: ps2 := by
      have := (failFast_parseMap env rest ps1).1
      rw [hrest] at this
      exact this
    rw [List.lookup_cons] at hl
    cases hk : (k == k0) with
    | true =>
      rw [hk] at hl
      cases hl
      exact ⟨ps, ps1, v1, List.prefix_refl _, hp2, hv, by rw [List.lookup_cons, hk]⟩
    | false =>
      rw [hk] at hl
      obtain ⟨q, q', v', hq, hq', hcase, hout⟩ :=
        parseMap_lookup env k v rest rest' ps1 ps2 hrest hl
      exact ⟨q, q', v', List.IsPrefix.trans hp1 hq, hq', hcase, by
        rw [List.lookup_cons, hk]; exact hout⟩

theorem parseArray_getElem (env : Env) (v : JSON) :
    ∀ (a out : List JSON) (i : Nat) (ps ps' : List Request),
    parseArray env a ps = .ok out ps' → a[i]? = some v →
    ∃ q q' v', ps <+: q ∧ q' <+: ps' ∧ parseArrayCase env v q = .ok v' q' ∧
      out[i]? = some v'
  | [], _, _, _, _, _, hl => by simp at hl
  | v0 :: rest, out, i, ps, ps', h, hl => by
    rw [parseArray_cons] at h
    obtain ⟨v1, ps1, hv, h1⟩ := Outcome.bind_eq_ok h
    obtain ⟨rest', ps2, hrest, h2⟩ := Outcome.bind_eq_ok h1
    obtain ⟨rfl, rfl⟩ := Outcome.ok_inj h2
    have hp1 : ps <+: ps1 := by
      have := (failFast_parseArrayCase env v0 ps).1
      rw [hv] at this
      exact this
    have hp2 : ps1 <+: ps2 := by
      have := (failFast_parseArray env rest ps1).1
      rw [hrest] at this
      exact this
    cases i with
    | zero =>
      simp only [List.getElem?_cons_zero, Option.some.injEq] at hl
      subst hl
      exact ⟨ps, ps1, v1, List.prefix_refl _, hp2, hv, by simp⟩
    | succ j =>
      simp only [List.getElem?_cons_succ] at hl
      obtain ⟨q, q', v', hq, hq', hcase, hout⟩ :=
        parseArray_getElem env v rest rest' j ps1 ps2 hrest hl
      exact ⟨q, q', v', List.IsPrefix.trans hp1 hq, hq', hcase, by
        simp only [List.getElem?_cons_succ]; exact hout⟩

theorem getPath_key_obj (k : String) (p : List Step) (m : List (String × JSON)) :
    getPath (.key k :: p) (.obj m) = (m.lookup k).bind (getPath p) := by
  simp only [getPath]
  cases m.lookup k <;> rfl

theorem getPath_idx_arr (i : Nat) (p : List Step) (a : List JSON) :
    getPath (.idx i :: p) (.arr a) = (a[i]?).bind (getPath p) := by
  simp only [getPath]
  cases a[i]? <;> rfl

theorem descend_obj (env : Env) {m out : List (String × JSON)} {ps ps' : List Request}
    (h : parseMap env m ps = .ok out ps') {st : Step} {p : List Step} {x : JSON}
    (hx : getPath (st :: p) (.obj m) = some x) :
    ∃ w q q' w', getPath p w = some x ∧ ps <+: q ∧ q' <+: ps' ∧
      parseMapCase env w q = .ok w' q' ∧
      ∀ y, getPath p w' = some y → getPath (st :: p) (.obj out) = some y := by
  cases st with
  | idx i => simp [getPath] at hx
  | key k0 =>
    rw [getPath_key_obj] at hx
    cases hl : m.lookup k0 with
    | none => rw [hl] at hx; cases hx
    | some w =>
      rw [hl] at hx
      obtain ⟨q, q', w', hq, hq', hcase, hout⟩ := parseMap_lookup env k0 w m out ps ps' h hl
      refine ⟨w, q, q', w', hx, hq, hq', hcase, ?_⟩
      intro y hy
      rw [getPath_key_obj, hout]
      exact hy

theorem descend_arr (env : Env) {a out : List JSON} {ps ps' : List Request}
    (h : parseArray env a ps = .ok out ps') {st : Step} {p : List Step} {x : JSON}
    (hx : getPath (st :: p) (.arr a) = some x) :
    ∃ w q q' w', getPath p w = some x ∧ ps <+: q ∧ q' <+: ps' ∧
      parseArrayCase env w q = .ok w' q' ∧
      ∀ y, getPath p w' = some y → getPath (st :: p) (.arr out) = some y := by
  cases st with
  | key k0 => simp [getPath] at hx
  | idx i =>
    rw [getPath_idx_arr] at hx
    cases hl : a[i]? with
    | none => rw [hl] at hx; cases hx
    | some w =>
      rw [hl] at hx
      obtain ⟨q, q', w', hq, hq', hcase, hout⟩ := parseArray_getElem env w a out i ps ps' h hl
      refine ⟨w, q, q', w', hx, hq, hq', hcase, ?_⟩
      intro y hy
      rw [getPath_idx_arr, hout]
      exact hy

theorem getPath_cons_scalar {st : Step} {p : List Step} {w x : JSON}
    (hx : getPath (st :: p) w = some x) :
    (∃ m, w = .obj m) ∨ (∃ a, w = .arr a) := by
  cases w with
  | obj m => exact Or.inl ⟨m, rfl⟩
  | arr a => exact Or.inr ⟨a, rfl⟩
  | null => cases st <;> simp [getPath] at hx
  | bool _ => cases st <;> simp [getPath] at hx
  | number _ => cases st <;> simp [getPath] at hx
  | str _ => cases st <;> simp [getPath] at hx

theorem resolved_marker_entry (env : Env) (T : String) (w' : JSON) (ps q q' sent : List Request)
    (hq : ps <+: q) (hq' : q' <+: sent)
    (hcase : parseMapCase env (.str ("secure:" ++ T)) q = .ok w' q') :
    ∃ i req plain, ps.length ≤ i ∧ answeredAt env sent i req plain ∧
      req.data = String.mk (T.data.takeWhile (· != ':')) ∧ w' = .str plain := by
  have hs : isMarker ("secure:" ++ T) = true := (isMarker_iff _).2 ⟨T, rfl⟩
  rw [parseMapCase_marker env _ _ q hs (split_marker T)] at hcase
  obtain ⟨plain, q1, hdec, hv⟩ := Outcome.bind_eq_ok hcase
  obtain ⟨rfl, rfl⟩ := Outcome.ok_inj hv
  obtain ⟨rfl, st, body, hres, hst, hplain⟩ := (decrypt_ok_iff env _ plain q q1).1 hdec
  refine ⟨q.length, decryptRequest env _ q, plain, hq.length_le, ?_, rfl, rfl⟩
  apply answeredAt_of_isPrefix env hq'
  refine ⟨?_, st, body, ?_, hst, hplain⟩
  · simp
  · rw [List.take_left]
    exact hres

theorem walk_resolves (env : Env) : ∀ (path : List Step),
    (∀ (m out : List (String × JSON)) (ps ps' : List Request),
      parseMap env m ps = .ok out ps' → ResolvedAt env ps ps' (.obj m) (.obj out) path) ∧
    (∀ (a out : List JSON) (ps ps' : List Request),
      parseArray env a ps = .ok out ps' → ResolvedAt env ps ps' (.arr a) (.arr out) path) := by
  intro path
  induction path with
  | nil =>
    constructor
    · intro m out ps ps' h k T hx
      obtain ⟨w, q, q', w', hw, hq, hq', hcase, hout⟩ := descend_obj env h hx
      simp only [getPath, Option.some.injEq] at hw
      subst hw
      obtain ⟨i, req, plain, hi, hans, hdata, rfl⟩ :=
        resolved_marker_entry env T w' ps q q' ps' hq hq' hcase
      exact ⟨i, req, plain, hi, hans, hdata, hout _ rfl⟩
    · intro a out ps ps' h k T hx
      simp [getPath] at hx
  | cons st rest ih =>
    have hlift : ∀ (ps q q' ps' : List Request) (w w' : JSON), ps <+: q → q' <+: ps' →
        ResolvedAt env q q' w w' rest → ∀ (k T : String),
        getPath (rest ++ [.key k]) w = some (.str ("secure:" ++ T)) →
        ∃ i req plain, ps.length ≤ i ∧ answeredAt env ps' i req plain ∧
          req.data = String.mk (T.data.takeWhile (· != ':')) ∧
          getPath (rest ++ [.key k]) w' = some (.str plain) := by
      intro ps q q' ps' w w' hq hq' hres k T hx
      obtain ⟨i, req, plain, hi, hans, hdata, hget⟩ := hres k T hx
      exact ⟨i, req, plain, le_trans hq.length_le hi, answeredAt_of_isPrefix env hq' hans,
        hdata, hget⟩
    have hrest : ∀ k : String, ∃ st1 p1, rest ++ [Step.key k] = st1 :: p1 := by
      intro k
      cases rest with
      | nil => exact ⟨_, _, rfl⟩
      | cons a b => exact ⟨_, _, rfl⟩
    constructor
    · intro m out ps ps' h k T hx
      obtain ⟨w, q, q', w', hw, hq, hq', hcase, hout⟩ :=
        descend_obj env h (show getPath (st :: (rest ++ [Step.key k])) (.obj m) = _ from hx)
      have hshape : (∃ m1, w = .obj m1) ∨ (∃ a1, w = .arr a1) := by
        obtain ⟨st1, p1, hp⟩ := hrest k
        rw [hp] at hw
        exact getPath_cons_scalar hw
      rcases hshape with ⟨m1, rfl⟩ | ⟨a1, rfl⟩
      · rw [parseMapCase_obj] at hcase
        obtain ⟨m1', q1, hm1, hv⟩ := Outcome.bind_eq_ok hcase
        obtain ⟨rfl, rfl⟩ := Outcome.ok_inj hv
        obtain ⟨i, req, plain, hi, hans, hdata, hget⟩ :=
          hlift ps q q1 ps' _ _ hq hq' (ih.1 m1 m1' q q1 hm1) k T hw
        exact ⟨i, req, plain, hi, hans, hdata, hout _ hget⟩
      · rw [parseMapCase_arr] at hcase
        obtain ⟨a1', q1, ha1, hv⟩ := Outcome.bind_eq_ok hcase
        obtain ⟨rfl, rfl⟩ := Outcome.ok_inj hv
        obtain ⟨i, req, plain, hi, hans, hdata, hget⟩ :=
          hlift ps q q1 ps' _ _ hq hq' (ih.2 a1 a1' q q1 ha1) k T hw
        exact ⟨i, req, plain, hi, hans, hdata, hout _ hget⟩
    · intro a out ps ps' h k T hx
      obtain ⟨w, q, q', w', hw, hq, hq', hcase, hout⟩ :=
        descend_arr env h (show getPath (st :: (rest ++ [Step.key k])) (.arr a) = _ from hx)
      have hshape : (∃ m1, w = .obj m1) ∨ (∃ a1, w = .arr a1) := by
        obtain ⟨st1, p1, hp⟩ := hrest k
        rw [hp] at hw
        exact getPath_cons_scalar hw
      rcases hshape with ⟨m1, rfl⟩ | ⟨a1, rfl⟩
      · rw [parseArrayCase_obj] at hcase
        obtain ⟨m1', q1, hm1, hv⟩ := Outcome.bind_eq_ok hcase
        obtain ⟨rfl, rfl⟩ := Outcome.ok_inj hv
        obtain ⟨i, req, plain, hi, hans, hdata, hget⟩ :=
          hlift ps q q1 ps' _ _ hq hq' (ih.1 m1 m1' q q1 hm1) k T hw
        exact ⟨i, req, plain, hi, hans, hdata, hout _ hget⟩
      · rw [parseArrayCase_arr] at hcase
        obtain ⟨a1', q1, ha1, hv⟩ := Outcome.bind_eq_ok hcase
        obtain ⟨rfl, rfl⟩ := Outcome.ok_inj hv
        obtain ⟨i, req, plain, hi, hans, hdata, hget⟩ :=
          hlift ps q q1 ps' _ _ hq hq' (ih.2 a1 a1' q q1 ha1) k T hw
        exact ⟨i, req, plain, hi, hans, hdata, hout _ hget⟩

theorem isOk_bind {α β : Type} {x : Outcome α} {f : α → List Request → Outcome β}
    (hx : x.isOk = true) (hf : ∀ a ps1, (f a ps1).isOk = true) : (x.bind f).isOk = true := by
  cases x with
  | ok a ps1 => exact hf a ps1
  | abort e ps1 => cases hx

theorem decrypt_returns (env : Env) (hno : ∀ qs req, (env.http qs req).refused = false)
    (t : String) (ps : List Request) : (decrypt env t ps).isOk = true := by
  have h := hno ps (decryptRequest env t ps)
  cases hres : env.http ps (decryptRequest env t ps) with
  | err msg => rw [hres] at h; cases h
  | response st body =>
    rw [hres] at h
    simp only [HttpResult.refused, decide_eq_false_iff_not] at h
    rw [decrypt_of_response env t ps st body hres, if_neg h]
    rfl

mutual
theorem parseMapCase_returns (env : Env) (hno : ∀ qs req, (env.http qs req).refused = false) :
    ∀ (v : JSON) (ps : List Request), (parseMapCase env v ps).isOk = true
  | .obj m, ps => by
    rw [parseMapCase_obj]
    exact isOk_bind (parseMap_returns env hno m ps) fun _ _ => rfl
  | .arr a, ps => by
    rw [parseMapCase_arr]
    exact isOk_bind (parseArray_returns env hno a ps) fun _ _ => rfl
  | .str s, ps => by
    cases hs : isMarker s with
    | false => rw [parseMapCase_plain env s ps hs]; rfl
    | true =>
      obtain ⟨t, ht⟩ := split_of_isMarker s hs
      rw [parseMapCase_marker env s t ps hs ht]
      exact isOk_bind (decrypt_returns env hno t ps) fun _ _ => rfl
  | .null, ps => by simp only [parseMapCase]; rfl
  | .bool _, ps => by simp only [parseMapCase]; rfl
  | .number _, ps => by simp only [parseMapCase]; rfl
theorem parseMap_returns (env : Env) (hno : ∀ qs req, (env.http qs req).refused = false) :
    ∀ (m : List (String × JSON)) (ps : List Request), (parseMap env m ps).isOk = true
  | [], ps => by simp only [parseMap]; rfl
  | kv :: rest, ps => by
    rw [parseMap_cons]
    exact isOk_bind (parseMapCase_returns env hno kv.2 ps) fun _ ps1 =>
      isOk_bind (parseMap_returns env hno rest ps1) fun _ _ => rfl
theorem parseArrayCase_returns (env : Env) (hno : ∀ qs req, (env.http qs req).refused = false) :
    ∀ (v : JSON) (ps : List Request), (parseArrayCase env v ps).isOk = true
  | .obj m, ps => by
    rw [parseArrayCase_obj]
    exact isOk_bind (parseMap_returns env hno m ps) fun _ _ => rfl
  | .arr a, ps => by
    rw [parseArrayCase_arr]
    exact isOk_bind (parseArray_returns env hno a ps) fun _ _ => rfl
  | .str _, ps => by simp only [parseArrayCase]; rfl
  | .null, ps => by simp only [parseArrayCase]; rfl
  | .bool _, ps => by simp only [parseArrayCase]; rfl
  | .number _, ps => by simp only [parseArrayCase]; rfl
theorem parseArray_returns (env : Env) (hno : ∀ qs req, (env.http qs req).refused = false) :
    ∀ (a : List JSON) (ps : List Request), (parseArray env a ps).isOk = true
  | [], ps => by simp only [parseArray]; rfl
  | v :: rest, ps => by
    rw [parseArray_cons]
    exact isOk_bind (parseArrayCase_returns env hno v ps) fun _ ps1 =>
      isOk_bind (parseArray_returns env hno rest ps1) fun _ _ => rfl
end

/-- C1: the walk of a document returns whenever no answer of the endpoint is
an error of `client.Do` or a status above 299; and when it returns, every string `secure:` followed by `T` that
the document holds as the value of an object key, at the end of any path
through objects and arrays, has been replaced at that same path by the
plaintext that the endpoint returned, with a status of at most 299, to a
request of this walk.  The token of that request is the piece that the walker
cuts out of the marker: the text of `T` before its first colon (all of `T`
when it has no colon). -/
theorem markers_under_keys_resolved (env : Env) (m : List (String × JSON))
    (ps : List Request) :
    ((∀ qs req, (env.http qs req).refused = false) →
      ∃ out sent, parseMap env m ps = .ok out sent) ∧
    ∀ out sent, parseMap env m ps = .ok out sent →
      ∀ (path : List Step) (k T : String),
        getPath (path ++ [.key k]) (.obj m) = some (.str ("secure:" ++ T)) →
        ∃ i req plain, ps.length ≤ i ∧ answeredAt env sent i req plain ∧
          req.data = String.mk (T.data.takeWhile (· != ':')) ∧
          getPath (path ++ [.key k]) (.obj out) = some (.str plain) := by
  constructor
  · intro hno
    have h := parseMap_returns env hno m ps
    cases hrun : parseMap env m ps with
    | ok out sent => exact ⟨out, sent, rfl⟩
    | abort e sent => rw [hrun] at h; cases h
  · intro out sent hrun path k T hleaf
    exact (walk_resolves env path).1 m out ps sent hrun k T hleaf

theorem markers_under_keys_resolved_witness :
    ((∀ qs req, (echoEnv.http qs req).refused = false) ∧
      ∃ out sent,
        parseMap echoEnv [("user", .str "alice"), ("pass", .str "secure:abc123")] [] =
          .ok out sent) ∧
    parseMap exampleEnv [("user", .str "alice"), ("pass", .str "secure:abc123")] [] =
      .ok [("user", .str "alice"), ("pass", .str "s3cr3t")]
        [⟨"abc123", "application/json", "Bearer tok"⟩] ∧
    getPath ([] ++ [.key "pass"]) (.obj [("user", .str "alice"), ("pass", .str "secure:abc123")])
      = some (.str ("secure:" ++ "abc123")) ∧
    ∃ i req plain, ([] : List Request).length ≤ i ∧
      answeredAt exampleEnv [⟨"abc123", "application/json", "Bearer tok"⟩] i req plain ∧
      req.data = String.mk (("abc123" : String).data.takeWhile (· != ':')) ∧
      getPath ([] ++ [.key "pass"]) (.obj [("user", .str "alice"), ("pass", .str "s3cr3t")])
        = some (.str plain) :=
  ⟨⟨fun _ _ => rfl,
    (markers_under_keys_resolved echoEnv
      [("user", .str "alice"), ("pass", .str "secure:abc123")] []).1 (fun _ _ => rfl)⟩,
   by rfl, by rfl,
   (markers_under_keys_resolved exampleEnv
     [("user", .str "alice"), ("pass", .str "secure:abc123")] []).2
     [("user", .str "alice"), ("pass", .str "s3cr3t")]
     [⟨"abc123", "application/json", "Bearer tok"⟩] (by rfl) [] "pass" "abc123" (by rfl)⟩

/-- The end-to-end example of the specification and a marker five levels
down, through objects and arrays in alternation. -/
theorem walk_examples :
    parseMap exampleEnv [("user", .str "alice"), ("pass", .str "secure:abc123")] [] =
      .ok [("user", .str "alice"), ("pass", .str "s3cr3t")]
        [⟨"abc123", "application/json", "Bearer tok"⟩] ∧
    parseMap exampleEnv
        [("l1", .arr [.obj [("l3", .arr [.number 0, .obj [("l5", .str "secure:a")]])]])] [] =
      .ok [("l1", .arr [.obj [("l3", .arr [.number 0, .obj [("l5", .str "X")]])]])]
        [⟨"a", "application/json", "Bearer tok"⟩] :=
  ⟨by rfl, by rfl⟩

/-! ## Independence of the order of visit -/

theorem agrees_ok {α : Type} (env : Env) (ps : List Request) (a : α) :
    Agrees env ps (.ok a ps) (some (a, [])) :=
  ⟨[], by simp, rfl, by simp⟩

theorem isOk_bind_of_isOk_false {α β : Type} {x : Outcome α}
    (f : α → List Request → Outcome β) (h : x.isOk = false) : (x.bind f).isOk = false := by
  cases x with
  | ok a ps => cases h
  | abort e ps => rfl

theorem agrees_decrypt (env : Env) (r : String → HttpResult)
    (hdet : ∀ ps req, env.http ps req = r req.data) (t : String) (ps : List Request) :
    Agrees env ps (decrypt env t ps)
      (match r t with
        | .err _ => none
        | .response st body => if 299 < st then none else some (body.data, [t])) := by
  have hr : env.http ps (decryptRequest env t ps) = r t := hdet ps _
  cases h : r t with
  | err msg =>
    rw [h] at hr
    rw [decrypt_of_err env t ps msg hr]
    rfl
  | response st body =>
    rw [h] at hr
    rw [decrypt_of_response env t ps st body hr]
    by_cases hst : 299 < st
    · simp only [if_pos hst]
      rfl
    · simp only [if_neg hst]
      refine ⟨[decryptRequest env t ps], rfl, rfl, ?_⟩
      intro req hreq
      rw [List.mem_singleton] at hreq
      subst hreq
      exact ⟨ps, rfl⟩

theorem agrees_wrap {α β : Type} (env : Env) (ps : List Request) (x : Outcome α)
    (p : Option (α × List String)) (g : α → β) (h : Agrees env ps x p) :
    Agrees env ps (x.bind fun a ps' => .ok (g a) ps') (p.map fun y => (g y.1, y.2)) := by
  cases p with
  | none => exact isOk_bind_of_isOk_false _ h
  | some y =>
    obtain ⟨extra, hx, htok, hform⟩ := h
    exact ⟨extra, by rw [hx]; rfl, htok, hform⟩

theorem agrees_seq {α β γ : Type} (env : Env) (ps : List Request) (x : Outcome α)
    (p : Option (α × List String)) (f : List Request → Outcome β)
    (q : Option (β × List String)) (g : α → β → γ) (hx : Agrees env ps x p)
    (hf : ∀ ps1, Agrees env ps1 (f ps1) q) :
    Agrees env ps (x.bind fun a ps1 => (f ps1).bind fun b ps2 => .ok (g a b) ps2)
      (p.bind fun y => q.map fun z => (g y.1 z.1, y.2 ++ z.2)) := by
  cases p with
  | none => exact isOk_bind_of_isOk_false _ hx
  | some y =>
    obtain ⟨e1, hx1, ht1, hform1⟩ := hx
    rw [hx1, Outcome.bind_ok]
    have h2 := hf (ps ++ e1)
    cases q with
    | none => exact isOk_bind_of_isOk_false _ h2
    | some z =>
      obtain ⟨e2, hx2, ht2, hform2⟩ := h2
      refine ⟨e1 ++ e2, ?_, ?_, ?_⟩
      · rw [hx2, Outcome.bind_ok, List.append_assoc]
      · simp only [Option.bind, Option.map, List.map_append, ht1, ht2]
      · intro req hreq
        rcases List.mem_append.1 hreq with h | h
        · exact hform1 req h
        · exact hform2 req h

mutual
theorem agrees_parseMapCase (env : Env) (r : String → HttpResult)
    (hdet : ∀ ps req, env.http ps req = r req.data) : ∀ (v : JSON) (ps : List Request),
    Agrees env ps (parseMapCase env v ps) (pureMapCase r v)
  | .obj m, ps => by
    rw [parseMapCase_obj]
    simp only [pureMapCase]
    exact agrees_wrap env ps _ _ JSON.obj (agrees_parseMap env r hdet m ps)
  | .arr a, ps => by
    rw [parseMapCase_arr]
    simp only [pureMapCase]
    exact agrees_wrap env ps _ _ JSON.arr (agrees_parseArray env r hdet a ps)
  | .str s, ps => by
    cases hs : isMarker s with
    | false =>
      rw [parseMapCase_plain env s ps hs]
      simp only [pureMapCase, hs]
      exact agrees_ok env ps _
    | true =>
      obtain ⟨t, ht⟩ := split_of_isMarker s hs
      rw [parseMapCase_marker env s t ps hs ht]
      simp only [pureMapCase, hs, ht, if_true]
      have h := agrees_wrap env ps _ _ JSON.str (agrees_decrypt env r hdet t ps)
      cases hr : r t with
      | err msg => rw [hr] at h; exact h
      | response st body =>
        rw [hr] at h
        by_cases hst : 299 < st
        · simp only [if_pos hst] at h ⊢; exact h
        · simp only [if_neg hst] at h ⊢; exact h
  | .null, ps => by simp only [parseMapCase, pureMapCase]; exact agrees_ok env ps _
  | .bool _, ps => by simp only [parseMapCase, pureMapCase]; exact agrees_ok env ps _
  | .number _, ps => by simp only [parseMapCase, pureMapCase]; exact agrees_ok env ps _
theorem agrees_parseMap (env : Env) (r : String → HttpResult)
    (hdet : ∀ ps req, env.http ps req = r req.data) :
    ∀ (m : List (String × JSON)) (ps : List Request),
    Agrees env ps (parseMap env m ps) (pureMap r m)
  | [], ps => by simp only [parseMap, pureMap]; exact agrees_ok env ps _
  | kv :: rest, ps => by
    rw [parseMap_cons]
    simp only [pureMap]
    exact agrees_seq env ps _ _ (fun ps1 => parseMap env rest ps1) _
      (fun (a : JSON) (b : List (String × JSON)) => (kv.1, a) :: b)
      (agrees_parseMapCase env r hdet kv.2 ps) (fun ps1 => agrees_parseMap env r hdet rest ps1)
theorem agrees_parseArrayCase (env : Env) (r : String → HttpResult)
    (hdet : ∀ ps req, env.http ps req = r req.data) : ∀ (v : JSON) (ps : List Request),
    Agrees env ps (parseArrayCase env v ps) (pureArrayCase r v)
  | .obj m, ps => by
    rw [parseArrayCase_obj]
    simp only [pureArrayCase]
    exact agrees_wrap env ps _ _ JSON.obj (agrees_parseMap env r hdet m ps)
  | .arr a, ps => by
    rw [parseArrayCase_arr]
    simp only [pureArrayCase]
    exact agrees_wrap env ps _ _ JSON.arr (agrees_parseArray env r hdet a ps)
  | .str _, ps => by simp only [parseArrayCase, pureArrayCase]; exact agrees_ok env ps _
  | .null, ps => by simp only [parseArrayCase, pureArrayCase]; exact agrees_ok env ps _
  | .bool _, ps => by simp only [parseArrayCase, pureArrayCase]; exact agrees_ok env ps _
  | .number _, ps => by simp only [parseArrayCase, pureArrayCase]; exact agrees_ok env ps _
theorem agrees_parseArray (env : Env) (r : String → HttpResult)
    (hdet : ∀ ps req, env.http ps req = r req.data) :
    ∀ (a : List JSON) (ps : List Request),
    Agrees env ps (parseArray env a ps) (pureArray r a)
  | [], ps => by simp only [parseArray, pureArray]; exact agrees_ok env ps _
  | v :: rest, ps => by
    rw [parseArray_cons]
    simp only [pureArray]
    exact agrees_seq env ps _ _ (fun ps1 => parseArray env rest ps1) _
      (fun (a : JSON) (b : List JSON) => a :: b)
      (agrees_parseArrayCase env r hdet v ps) (fun ps1 => agrees_parseArray env r hdet rest ps1)
end

theorem pureMap_cons (r : String → HttpResult) (kv : String × JSON)
    (rest : List (String × JSON)) :
    pureMap r (kv :: rest) =
      (pureMapCase r kv.2).bind fun x =>
        (pureMap r rest).map fun y => ((kv.1, x.1) :: y.1, x.2 ++ y.2) := by
  simp only [pureMap]

theorem pureArray_cons (r : String → HttpResult) (v : JSON) (rest : List JSON) :
    pureArray r (v :: rest) =
      (pureArrayCase r v).bind fun x =>
        (pureArray r rest).map fun y => (x.1 :: y.1, x.2 ++ y.2) := by
  simp only [pureArray]

theorem pureMap_append (r : String → HttpResult) : ∀ (l1 l2 : List (String × JSON)),
    pureMap r (l1 ++ l2) =
      (pureMap r l1).bind fun x => (pureMap r l2).map fun y => (x.1 ++ y.1, x.2 ++ y.2)
  | [], l2 => by
    simp only [List.nil_append, pureMap, Option.some_bind]
    cases pureMap r l2 <;> rfl
  | kv :: l1, l2 => by
    rw [List.cons_append, pureMap_cons, pureMap_cons, pureMap_append r l1 l2]
    cases pureMapCase r kv.2 <;> cases pureMap r l1 <;> cases pureMap r l2 <;>
      simp [List.append_assoc]

theorem pureArray_append (r : String → HttpResult) : ∀ (l1 l2 : List JSON),
    pureArray r (l1 ++ l2) =
      (pureArray r l1).bind fun x => (pureArray r l2).map fun y => (x.1 ++ y.1, x.2 ++ y.2)
  | [], l2 => by
    simp only [List.nil_append, pureArray, Option.some_bind]
    cases pureArray r l2 <;> rfl
  | v :: l1, l2 => by
    rw [List.cons_append, pureArray_cons, pureArray_cons, pureArray_append r l1 l2]
    cases pureArrayCase r v <;> cases pureArray r l1 <;> cases pureArray r l2 <;>
      simp [List.append_assoc]

theorem sameEntries_trans {p q t : Option (List (String × JSON) × List String)}
    (h1 : SameEntries p q) (h2 : SameEntries q t) : SameEntries p t := by
  cases p <;> cases q <;> cases t <;> simp only [SameEntries] at h1 h2 ⊢
  exact ⟨h1.1.trans h2.1, h1.2.trans h2.2⟩

theorem sameResult_refl (p : Option (JSON × List String)) : SameResult p p := by
  cases p with
  | none => trivial
  | some x => exact ⟨Reorder.refl _, List.Perm.refl _⟩

theorem sameResult_trans {p q t : Option (JSON × List String)}
    (h1 : SameResult p q) (h2 : SameResult q t) : SameResult p t := by
  cases p <;> cases q <;> cases t <;> simp only [SameResult] at h1 h2 ⊢
  exact ⟨Reorder.trans h1.1 h2.1, h1.2.trans h2.2⟩

theorem pureMap_perm (r : String → HttpResult) {m n : List (String × JSON)}
    (h : m.Perm n) : SameEntries (pureMap r m) (pureMap r n) := by
  induction h with
  | nil => simp only [pureMap, SameEntries]; exact ⟨List.Perm.nil, List.Perm.nil⟩
  | cons x hp ih =>
    rw [pureMap_cons, pureMap_cons]
    rename_i l1 l2
    cases pureMapCase r x.2 <;> cases h1 : pureMap r l1 <;> cases h2 : pureMap r l2 <;>
      rw [h1, h2] at ih <;> simp only [SameEntries] at ih ⊢ <;>
      simp only [Option.bind, Option.map]
    exact ⟨List.Perm.cons _ ih.1, List.Perm.append_left _ ih.2⟩
  | swap x y l =>
    rw [pureMap_cons, pureMap_cons, pureMap_cons, pureMap_cons]
    cases pureMapCase r x.2 <;> cases pureMapCase r y.2 <;> cases pureMap r l <;>
      simp only [SameEntries, Option.bind, Option.map]
    refine ⟨List.Perm.swap _ _ _, ?_⟩
    rw [← List.append_assoc, ← List.append_assoc]
    exact List.Perm.append_right _ List.perm_append_comm
  | trans _ _ ih1 ih2 => exact sameEntries_trans ih1 ih2

theorem pure_reorder (r : String → HttpResult) {a b : JSON} (h : Reorder a b) :
    SameResult (pureMapCase r a) (pureMapCase r b) ∧
    SameResult (pureArrayCase r a) (pureArrayCase r b) := by
  induction h with
  | refl v => exact ⟨sameResult_refl _, sameResult_refl _⟩
  | trans _ _ ih1 ih2 => exact ⟨sameResult_trans ih1.1 ih2.1, sameResult_trans ih1.2 ih2.2⟩
  | perm hp =>
    rename_i m n
    have h := pureMap_perm r hp
    simp only [pureMapCase, pureArrayCase]
    cases h1 : pureMap r m <;> cases h2 : pureMap r n <;> rw [h1, h2] at h <;>
      simp only [SameEntries] at h <;> simp only [SameResult, Option.map]
    · exact ⟨trivial, trivial⟩
    · exact ⟨⟨Reorder.perm h.1, h.2⟩, ⟨Reorder.perm h.1, h.2⟩⟩
  | entry before after k hvw ih =>
    rename_i v w
    have h := ih.1
    simp only [pureMapCase, pureArrayCase, pureMap_append, pureMap_cons]
    cases pureMap r before <;> cases h1 : pureMapCase r v <;> cases h2 : pureMapCase r w <;>
      rw [h1, h2] at h <;> cases pureMap r after <;>
      simp only [SameResult] at h <;> simp only [SameResult, Option.bind, Option.map]
    all_goals first
      | exact ⟨trivial, trivial⟩
      | exact ⟨⟨Reorder.entry _ _ k h.1,
            List.Perm.append_left _ (List.Perm.append_right _ h.2)⟩,
          ⟨Reorder.entry _ _ k h.1, List.Perm.append_left _ (List.Perm.append_right _ h.2)⟩⟩
  | elem before after hvw ih =>
    rename_i v w
    have h := ih.2
    simp only [pureMapCase, pureArrayCase, pureArray_append, pureArray_cons]
    cases pureArray r before <;> cases h1 : pureArrayCase r v <;>
      cases h2 : pureArrayCase r w <;>
      rw [h1, h2] at h <;> cases pureArray r after <;>
      simp only [SameResult] at h <;> simp only [SameResult, Option.bind, Option.map]
    all_goals first
      | exact ⟨trivial, trivial⟩
      | exact ⟨⟨Reorder.elem _ _ h.1,
            List.Perm.append_left _ (List.Perm.append_right _ h.2)⟩,
          ⟨Reorder.elem _ _ h.1, List.Perm.append_left _ (List.Perm.append_right _ h.2)⟩⟩

theorem requests_of_tokens (env : Env)
    (hc : ∀ qs qs', env.openCredential qs = env.openCredential qs') (e : List Request)
    (hform : ∀ req ∈ e, ∃ qs, req = decryptRequest env req.data qs) :
    e = (e.map Request.data).map fun t => decryptRequest env t [] := by
  rw [List.map_map]
  conv_lhs => rw [← List.map_id e]
  apply List.map_congr_left
  intro req hreq
  obtain ⟨qs, h⟩ := hform req hreq
  calc id req = decryptRequest env req.data qs := h
    _ = decryptRequest env req.data [] := by simp only [decryptRequest, hc qs []]

/-- C8, as the code has it: for an endpoint whose answer is a function of the
token alone, two walks of the same document that visit the entries of its
objects (at any depth) in different orders both return or both abort, and
both return when the function never answers with an error or a status above
299.  When they return, the walked documents are the same up to the order of
the entries, the tokens sent are the same up to order, and so are the whole
requests when the credential file does not change during the run. -/
theorem walk_order_independent (env : Env) (r : String → HttpResult)
    (hdet : ∀ ps req, env.http ps req = r req.data)
    (m n : List (String × JSON)) (hmn : Reorder (.obj m) (.obj n)) (ps : List Request) :
    ((∀ t, (r t).refused = false) → (parseMap env m ps).isOk = true) ∧
    (parseMap env m ps).isOk = (parseMap env n ps).isOk ∧
    ∀ out sent, parseMap env m ps = .ok out sent →
      ∃ out' sent', parseMap env n ps = .ok out' sent' ∧
        Reorder (.obj out) (.obj out') ∧
        ((sent.drop ps.length).map Request.data).Perm
          ((sent'.drop ps.length).map Request.data) ∧
        ((∀ qs qs', env.openCredential qs = env.openCredential qs') →
          (sent.drop ps.length).Perm (sent'.drop ps.length)) := by
  refine ⟨fun hno => parseMap_returns env (fun qs req => by rw [hdet]; exact hno _) m ps, ?_⟩
  have hm := agrees_parseMap env r hdet m ps
  have hn := agrees_parseMap env r hdet n ps
  have hs := (pure_reorder r hmn).1
  simp only [pureMapCase] at hs
  cases h1 : pureMap r m with
  | none =>
    cases h2 : pureMap r n with
    | some y => rw [h1, h2] at hs; exact absurd hs (by simp [SameResult])
    | none =>
      rw [h1] at hm
      rw [h2] at hn
      simp only [Agrees] at hm hn
      refine ⟨by rw [hm, hn], ?_⟩
      intro out sent hrun
      rw [hrun] at hm
      cases hm
  | some x =>
    cases h2 : pureMap r n with
    | none => rw [h1, h2] at hs; exact absurd hs (by simp [SameResult])
    | some y =>
      rw [h1, h2] at hs
      rw [h1] at hm
      rw [h2] at hn
      obtain ⟨e1, hrun1, ht1, hform1⟩ := hm
      obtain ⟨e2, hrun2, ht2, hform2⟩ := hn
      simp only [SameResult, Option.map] at hs
      refine ⟨by rw [hrun1, hrun2]; rfl, ?_⟩
      intro out sent hrun
      rw [hrun1] at hrun
      obtain ⟨rfl, rfl⟩ := Outcome.ok_inj hrun
      have htok : (e1.map Request.data).Perm (e2.map Request.data) := by
        rw [ht1, ht2]
        exact hs.2
      refine ⟨y.1, ps ++ e2, hrun2, hs.1, ?_, ?_⟩
      · rw [List.drop_left, List.drop_left]
        exact htok
      · intro hc
        rw [List.drop_left, List.drop_left, requests_of_tokens env hc e1 hform1,
          requests_of_tokens env hc e2 hform2]
        exact List.Perm.map _ htok

theorem walk_order_independent_witness :
    (∀ ps req, echoEnv.http ps req = echoHttp req.data) ∧
    Reorder (.obj [("x", .str "secure:a"), ("y", .str "secure:b")])
      (.obj [("y", .str "secure:b"), ("x", .str "secure:a")]) ∧
    (∀ t, (echoHttp t).refused = false) ∧
    (parseMap echoEnv [("x", .str "secure:a"), ("y", .str "secure:b")] []).isOk = true ∧
    (parseMap echoEnv [("x", .str "secure:a"), ("y", .str "secure:b")] []).isOk =
      (parseMap echoEnv [("y", .str "secure:b"), ("x", .str "secure:a")] []).isOk ∧
    parseMap echoEnv [("x", .str "secure:a"), ("y", .str "secure:b")] [] =
      .ok [("x", .str "plain-a"), ("y", .str "plain-b")]
        [⟨"a", "application/json", "Bearer tok"⟩, ⟨"b", "application/json", "Bearer tok"⟩] ∧
    (∀ qs qs', echoEnv.openCredential qs = echoEnv.openCredential qs') ∧
    ∃ out' sent',
      parseMap echoEnv [("y", .str "secure:b"), ("x", .str "secure:a")] [] = .ok out' sent' ∧
      Reorder (.obj [("x", .str "plain-a"), ("y", .str "plain-b")]) (.obj out') ∧
      ((([⟨"a", "application/json", "Bearer tok"⟩, ⟨"b", "application/json", "Bearer tok"⟩] :
          List Request).drop ([] : List Request).length).map Request.data).Perm
        ((sent'.drop ([] : List Request).length).map Request.data) ∧
      (([⟨"a", "application/json", "Bearer tok"⟩, ⟨"b", "application/json", "Bearer tok"⟩] :
          List Request).drop ([] : List Request).length).Perm
        (sent'.drop ([] : List Request).length) :=
  ⟨fun _ _ => rfl, Reorder.perm (List.Perm.swap _ _ _), fun _ => rfl,
   (walk_order_independent echoEnv echoHttp (fun _ _ => rfl)
     [("x", .str "secure:a"), ("y", .str "secure:b")]
     [("y", .str "secure:b"), ("x", .str "secure:a")]
     (Reorder.perm (List.Perm.swap _ _ _)) []).1 (fun _ => rfl),
   (walk_order_independent echoEnv echoHttp (fun _ _ => rfl)
     [("x", .str "secure:a"), ("y", .str "secure:b")]
     [("y", .str "secure:b"), ("x", .str "secure:a")]
     (Reorder.perm (List.Perm.swap _ _ _)) []).2.1,
   by rfl, fun _ _ => rfl,
   match (walk_order_independent echoEnv echoHttp (fun _ _ => rfl)
     [("x", .str "secure:a"), ("y", .str "secure:b")]
     [("y", .str "secure:b"), ("x", .str "secure:a")]
     (Reorder.perm (List.Perm.swap _ _ _)) []).2.2
     [("x", .str "plain-a"), ("y", .str "plain-b")]
     [⟨"a", "application/json", "Bearer tok"⟩, ⟨"b", "application/json", "Bearer tok"⟩]
     (by rfl) with
   | ⟨out', sent', h1, h2, h3, h4⟩ => ⟨out', sent', h1, h2, h3, h4 (fun _ _ => rfl)⟩⟩

/-- C8, as stated, fails when a resolution fails.  The endpoint of the first
world is a function of the token that rejects `bad`: visiting `x` first sends
the token `bad` alone, visiting `y` first sends `abc123` and then `bad`.  In
the second world the service cannot be reached for `down` and rejects every
other token: one order ends in a panic, the other in an exit with code 1. -/
theorem order_changes_calls_when_a_resolution_fails :
    (∀ ps req, exampleEnv.http ps req = exampleHttp req.data) ∧
    Reorder (.obj [("x", .str "secure:bad"), ("y", .str "secure:abc123")])
      (.obj [("y", .str "secure:abc123"), ("x", .str "secure:bad")]) ∧
    (parseMap exampleEnv [("x", .str "secure:bad"), ("y", .str "secure:abc123")] []).posts.map
      Request.data = ["bad"] ∧
    (parseMap exampleEnv [("y", .str "secure:abc123"), ("x", .str "secure:bad")] []).posts.map
      Request.data = ["abc123", "bad"] ∧
    ¬ (["bad"] : List String).Perm ["abc123", "bad"] ∧
    parseMap refusingEnv [("x", .str "secure:down"), ("y", .str "secure:other")] [] =
      .abort (.panic "connection refused") [⟨"down", "application/json", "Bearer tok"⟩] ∧
    parseMap refusingEnv [("y", .str "secure:other"), ("x", .str "secure:down")] [] =
      .abort (.exit 1) [⟨"other", "application/json", "Bearer tok"⟩] :=
  ⟨fun _ _ => rfl, Reorder.perm (List.Perm.swap _ _ _), by rfl, by rfl,
   fun h => absurd h.length_eq (by decide), by rfl, by rfl⟩

/-- The two orders of the example, evaluated: the same entries and the same
two tokens, in the other order. -/
theorem walk_two_orders_example :
    parseMap exampleEnv [("x", .str "secure:a"), ("y", .str "secure:b")] [] =
      .ok [("x", .str "X"), ("y", .str "Y")]
        [⟨"a", "application/json", "Bearer tok"⟩, ⟨"b", "application/json", "Bearer tok"⟩] ∧
    parseMap exampleEnv [("y", .str "secure:b"), ("x", .str "secure:a")] [] =
      .ok [("y", .str "Y"), ("x", .str "X")]
        [⟨"b", "application/json", "Bearer tok"⟩, ⟨"a", "application/json", "Bearer tok"⟩] :=
  ⟨by rfl, by rfl⟩

end Kamus
